import Mathlib

/-!
Verification development for the Smart-Index repository.

Part 1 embeds `CustomeDictionary.py`: an open-chained hash table with
string keys (the application only ever stores string keys; the
non-string branch of `_hash` delegates to Python's builtin `hash` and is
out of scope per the specification's design notes).

Part 2 embeds the TF-IDF / inverted-index / query-resolution pipeline of
`indexing.py` (and, for the stateful default-dict index, the
`Indexing_App.py` variant), parametrised over the external NLP
collaborators (tokenizer, POS tagger, synonym expansion).
-/

set_option maxHeartbeats 1000000

section CustomDictionaryModel

variable {α : Type}

/-- The state of `CustomDictionary`: a capacity, a live-entry count and the
bucket array (`self.buckets`), each bucket a list of (key, value) pairs.
Keys are strings (the string branch of `_hash`). The load-factor threshold
is the constant 0.75 = 3/4 and is kept implicit. -/
structure CustomDictionary (α : Type) where
  capacity : Nat
  size : Nat
  buckets : List (List (String × α))
deriving DecidableEq

/-- `CustomDictionary.__init__(initial_capacity)`: `capacity` buckets, all
empty, size 0. The Python default for `initial_capacity` is 1024. -/
def customInit (c : Nat) : CustomDictionary α :=
  ⟨c, 0, List.replicate c []⟩

/-- The string branch of `CustomDictionary._hash`: polynomial rolling hash
`hash_value = (hash_value * 31 + ord(char)) % capacity`, left to right,
starting from 0. `Char.toNat` is `ord`. -/
def stringHash (key : String) (capacity : Nat) : Nat :=
  key.data.foldl (fun h c => (h * 31 + c.toNat) % capacity) 0

namespace CustomDictionary

/-- The scan loop of `__getitem__` restricted to one bucket: first entry
with an equal key, `none` models `KeyError`. -/
def bucketFind : List (String × α) → String → Option α
  | [], _ => none
  | (k', v) :: rest, k => if k' = k then some v else bucketFind rest k

/-- The scan loop of `__setitem__` that overwrites in place
(`bucket[i] = (key, value)`) at the first entry with an equal key. -/
def bucketReplace : List (String × α) → String → α → List (String × α)
  | [], _, _ => []
  | (k', v') :: rest, k, v =>
      if k' = k then (k, v) :: rest else (k', v') :: bucketReplace rest k v

/-- The membership scan of `__setitem__` (whether some existing entry has
an equal key). -/
def bucketContainsB : List (String × α) → String → Bool
  | [], _ => false
  | (k', _) :: rest, k => k' = k || bucketContainsB rest k

/-- The scan loop of `__delitem__` restricted to one bucket: remove the
first entry with an equal key (`del bucket[i]`); leaves the bucket
unchanged when the key is absent (in that case `__delitem__` raises). -/
def bucketErase : List (String × α) → String → List (String × α)
  | [], _ => []
  | (k', v') :: rest, k =>
      if k' = k then rest else (k', v') :: bucketErase rest k

/-- `CustomDictionary.__getitem__`: find the key's bucket by hash and scan.
`none` models the raised `KeyError`. -/
def getItem (d : CustomDictionary α) (k : String) : Option α :=
  bucketFind (d.buckets.getD (stringHash k d.capacity) []) k

/-- The body of `__setitem__` without the load-factor check: overwrite in
place when the key is present, otherwise append the entry to its bucket
and increment `size`. -/
def insertEntry (d : CustomDictionary α) (k : String) (v : α) : CustomDictionary α :=
  let i := stringHash k d.capacity
  let b := d.buckets.getD i []
  if bucketContainsB b k then
    { d with buckets := d.buckets.set i (bucketReplace b k v) }
  else
    { d with buckets := d.buckets.set i (b ++ [(k, v)]), size := d.size + 1 }

/-- `CustomDictionary._resize`: double the capacity, reset the buckets and
the size, and rehash every old entry in bucket order. The source
reinserts through `self[key] = value` (the full `__setitem__` path);
theorem `CustomDictionary.resizeViaSet_eq_resize` below proves that for
every state the resize trigger can actually see, the load-factor check
never fires during this rehash, so the plain insertion path used here
coincides with the source's recursive path. -/
def resize (d : CustomDictionary α) : CustomDictionary α :=
  d.buckets.flatten.foldl (fun acc p => insertEntry acc p.1 p.2)
    ⟨d.capacity * 2, 0, List.replicate (d.capacity * 2) []⟩

/-- `CustomDictionary.__setitem__`: overwrite in place (early return, no
resize check) when the key exists; otherwise append, increment `size`,
and resize when `size / capacity >= 0.75`. Since 0.75 = 3/4 exactly, the
comparison `size / capacity >= 0.75` is `3 * capacity ≤ 4 * size` (the
Python float division is exact here for the power-of-two capacities the
program uses). -/
def setItem (d : CustomDictionary α) (k : String) (v : α) : CustomDictionary α :=
  if bucketContainsB (d.buckets.getD (stringHash k d.capacity) []) k then
    insertEntry d k v
  else
    let d' := insertEntry d k v
    if 3 * d'.capacity ≤ 4 * d'.size then resize d' else d'

/-- `CustomDictionary._resize` as literally written in the source, i.e.
reinserting every old entry through the full `__setitem__` path. -/
def resizeViaSet (d : CustomDictionary α) : CustomDictionary α :=
  d.buckets.flatten.foldl (fun acc p => setItem acc p.1 p.2)
    ⟨d.capacity * 2, 0, List.replicate (d.capacity * 2) []⟩

/-- `CustomDictionary.__delitem__`: `none` models the raised `KeyError`;
otherwise remove the first matching entry of the key's bucket and
decrement `size`. -/
def delItem (d : CustomDictionary α) (k : String) : Option (CustomDictionary α) :=
  let i := stringHash k d.capacity
  let b := d.buckets.getD i []
  if bucketContainsB b k then
    some { d with buckets := d.buckets.set i (bucketErase b k), size := d.size - 1 }
  else
    none

/-- `CustomDictionary.clear`. -/
def clear (d : CustomDictionary α) : CustomDictionary α :=
  { d with buckets := List.replicate d.capacity [], size := 0 }

/-- `CustomDictionary.items`: all entries in bucket order. -/
def items (d : CustomDictionary α) : List (String × α) :=
  d.buckets.flatten

/-- Structural well-formedness of a dictionary state:
capacity positive (capacity 0 would be a `ZeroDivisionError` in `_hash`),
bucket array of length `capacity`, `size` counting all stored entries,
every entry stored in the bucket its key currently hashes to, and
no duplicate keys inside a bucket. -/
def WFS (d : CustomDictionary α) : Prop :=
  0 < d.capacity ∧
  d.buckets.length = d.capacity ∧
  d.size = (d.buckets.map List.length).sum ∧
  (∀ i ∈ List.range d.buckets.length,
    ∀ p ∈ d.buckets.getD i [], stringHash p.1 d.capacity = i) ∧
  (∀ b ∈ d.buckets, (b.map Prod.fst).Nodup)

instance (d : CustomDictionary α) : Decidable (WFS d) := by
  unfold WFS; infer_instance

/-- Full invariant: structure plus the load-factor bound
`size / capacity < 0.75` (as exact rational arithmetic,
`4 * size < 3 * capacity`). -/
def Inv (d : CustomDictionary α) : Prop :=
  WFS d ∧ 4 * d.size < 3 * d.capacity

instance (d : CustomDictionary α) : Decidable (Inv d) := by
  unfold Inv; infer_instance

/-- States reachable from the constructor by the public mutators. -/
inductive Reachable : CustomDictionary α → Prop
  | init (c : Nat) : 0 < c → Reachable (customInit c)
  | set {d : CustomDictionary α} (k : String) (v : α) :
      Reachable d → Reachable (setItem d k v)
  | del {d d' : CustomDictionary α} (k : String) :
      Reachable d → delItem d k = some d' → Reachable d'
  | clears {d : CustomDictionary α} :
      Reachable d → Reachable (clear d)

end CustomDictionary

/-! ### Basic bucket-level lemmas -/

namespace CustomDictionary

theorem bucketFind_eq_none_of_not_contains {b : List (String × α)} {k : String}
    (h : bucketContainsB b k = false) : bucketFind b k = none := by
  induction b with
  | nil => rfl
  | cons p rest ih =>
    obtain ⟨k', v⟩ := p
    simp only [bucketContainsB, Bool.or_eq_false_iff] at h
    simp only [bucketFind]
    rw [if_neg (by simpa using h.1)]
    exact ih h.2

theorem bucketContainsB_eq_true_of_find {b : List (String × α)} {k : String} {v : α}
    (h : bucketFind b k = some v) : bucketContainsB b k = true := by
  induction b with
  | nil => simp [bucketFind] at h
  | cons p rest ih =>
    obtain ⟨k', v'⟩ := p
    simp only [bucketFind] at h
    simp only [bucketContainsB, Bool.or_eq_true]
    by_cases hk : k' = k
    · left; simpa using hk
    · right; rw [if_neg hk] at h; exact ih h

theorem bucketContainsB_iff_find_isSome {b : List (String × α)} {k : String} :
    bucketContainsB b k = true ↔ (bucketFind b k).isSome := by
  constructor
  · intro h
    cases hf : bucketFind b k with
    | some v => simp
    | none =>
      exfalso
      induction b with
      | nil => simp [bucketContainsB] at h
      | cons p rest ih =>
        obtain ⟨k', v'⟩ := p
        simp only [bucketContainsB, Bool.or_eq_true] at h
        simp only [bucketFind] at hf
        rcases h with h | h
        · rw [if_pos (by simpa using h)] at hf; simp at hf
        · by_cases hk : k' = k
          · rw [if_pos hk] at hf; simp at hf
          · rw [if_neg hk] at hf; exact ih h hf
  · intro h
    cases hf : bucketFind b k with
    | none => rw [hf] at h; simp at h
    | some v => exact bucketContainsB_eq_true_of_find hf

theorem bucketFind_append {b₁ b₂ : List (String × α)} {k : String} :
    bucketFind (b₁ ++ b₂) k =
      (bucketFind b₁ k).rec (bucketFind b₂ k) (fun v => some v) := by
  induction b₁ with
  | nil => simp [bucketFind]
  | cons p rest ih =>
    obtain ⟨k', v'⟩ := p
    by_cases hk : k' = k
    · simp [bucketFind, hk]
    · simp only [List.cons_append, bucketFind, if_neg hk]
      exact ih

theorem bucketFind_replace_self {b : List (String × α)} {k : String} {v : α}
    (h : bucketContainsB b k = true) : bucketFind (bucketReplace b k v) k = some v := by
  induction b with
  | nil => simp [bucketContainsB] at h
  | cons p rest ih =>
    obtain ⟨k', v'⟩ := p
    simp only [bucketContainsB, Bool.or_eq_true] at h
    by_cases hk : k' = k
    · simp [bucketReplace, hk, bucketFind]
    · simp only [bucketReplace, if_neg hk, bucketFind]
      exact ih (h.resolve_left (by simp [hk]))

theorem bucketFind_replace_ne {b : List (String × α)} {k k' : String} {v : α}
    (h : k' ≠ k) : bucketFind (bucketReplace b k v) k' = bucketFind b k' := by
  induction b with
  | nil => rfl
  | cons p rest ih =>
    obtain ⟨k₀, v₀⟩ := p
    by_cases hk : k₀ = k
    · subst hk
      simp only [bucketReplace, if_pos rfl, bucketFind]
      rw [if_neg (fun hh => h hh.symm), if_neg (fun hh => h hh.symm)]
    · simp only [bucketReplace, if_neg hk, bucketFind]
      by_cases hk' : k₀ = k'
      · simp [hk']
      · rw [if_neg hk', if_neg hk']
        exact ih

theorem bucketReplace_map_fst {b : List (String × α)} {k : String} {v : α} :
    (bucketReplace b k v).map Prod.fst = b.map Prod.fst := by
  induction b with
  | nil => rfl
  | cons p rest ih =>
    obtain ⟨k₀, v₀⟩ := p
    by_cases hk : k₀ = k
    · subst hk; simp [bucketReplace]
    · simp [bucketReplace, if_neg hk, ih]

theorem bucketReplace_length {b : List (String × α)} {k : String} {v : α} :
    (bucketReplace b k v).length = b.length := by
  have h := congrArg List.length (bucketReplace_map_fst (b := b) (k := k) (v := v))
  simpa using h

theorem bucketReplace_forall {b : List (String × α)} {k : String} {v : α}
    (P : String × α → Prop) (hb : ∀ p ∈ b, P p) (hk : ∀ w, P (k, w)) :
    ∀ p ∈ bucketReplace b k v, P p := by
  induction b with
  | nil => simp [bucketReplace]
  | cons q rest ih =>
    obtain ⟨k₀, v₀⟩ := q
    by_cases hkk : k₀ = k
    · subst hkk
      simp only [bucketReplace, if_pos rfl]
      intro p hp
      rcases List.mem_cons.mp hp with h | h
      · subst h; exact hk v
      · exact hb p (List.mem_cons_of_mem _ h)
    · simp only [bucketReplace, if_neg hkk]
      intro p hp
      rcases List.mem_cons.mp hp with h | h
      · subst h; exact hb _ (List.mem_cons_self _ _)
      · exact ih (fun q hq => hb q (List.mem_cons_of_mem _ hq)) p h

theorem bucketErase_of_contains {b : List (String × α)} {k : String}
    (h : bucketContainsB b k = true) :
    (bucketErase b k).length + 1 = b.length := by
  induction b with
  | nil => simp [bucketContainsB] at h
  | cons p rest ih =>
    obtain ⟨k₀, v₀⟩ := p
    by_cases hk : k₀ = k
    · simp [bucketErase, hk]
    · simp only [bucketContainsB, Bool.or_eq_true] at h
      have h' : bucketContainsB rest k = true := by
        rcases h with h | h
        · exact absurd (by simpa using h) hk
        · exact h
      simp only [bucketErase, if_neg hk, List.length_cons]
      rw [← ih h']

theorem bucketFind_not_mem {b : List (String × α)} {k : String}
    (h : k ∉ b.map Prod.fst) : bucketFind b k = none := by
  induction b with
  | nil => rfl
  | cons p rest ih =>
    obtain ⟨k₀, v₀⟩ := p
    simp only [List.map_cons, List.mem_cons, not_or] at h
    simp only [bucketFind, if_neg (fun hh : k₀ = k => h.1 hh.symm)]
    exact ih h.2

theorem mem_fst_of_bucketFind {b : List (String × α)} {k : String} {v : α}
    (h : bucketFind b k = some v) : k ∈ b.map Prod.fst := by
  induction b with
  | nil => simp [bucketFind] at h
  | cons p rest ih =>
    obtain ⟨k₀, v₀⟩ := p
    simp only [bucketFind] at h
    by_cases hk : k₀ = k
    · simp [hk]
    · rw [if_neg hk] at h
      exact List.mem_cons_of_mem _ (ih h)

theorem bucketErase_sublist {b : List (String × α)} {k : String} :
    (bucketErase b k).Sublist b := by
  induction b with
  | nil => simp [bucketErase]
  | cons p rest ih =>
    obtain ⟨k₀, v₀⟩ := p
    by_cases hk : k₀ = k
    · simp only [bucketErase, if_pos hk]
      exact List.sublist_cons_self _ _
    · simp only [bucketErase, if_neg hk]
      exact ih.cons₂ _

theorem bucketFind_erase_self {b : List (String × α)} {k : String}
    (hnd : (b.map Prod.fst).Nodup) : bucketFind (bucketErase b k) k = none := by
  induction b with
  | nil => rfl
  | cons p rest ih =>
    obtain ⟨k₀, v₀⟩ := p
    simp only [List.map_cons, List.nodup_cons] at hnd
    by_cases hk : k₀ = k
    · subst hk
      simp only [bucketErase, if_pos rfl]
      exact bucketFind_not_mem hnd.1
    · simp only [bucketErase, if_neg hk, bucketFind, if_neg hk]
      exact ih hnd.2

theorem bucketFind_erase_ne {b : List (String × α)} {k k' : String}
    (h : k' ≠ k) : bucketFind (bucketErase b k) k' = bucketFind b k' := by
  induction b with
  | nil => rfl
  | cons p rest ih =>
    obtain ⟨k₀, v₀⟩ := p
    by_cases hk : k₀ = k
    · subst hk
      have h1 : bucketErase ((k₀, v₀) :: rest) k₀ = rest := by simp [bucketErase]
      have h2 : bucketFind ((k₀, v₀) :: rest) k' = bucketFind rest k' := by
        simp only [bucketFind]
        rw [if_neg (fun hh : k₀ = k' => h hh.symm)]
      rw [h1, h2]
    · simp only [bucketErase, if_neg hk, bucketFind]
      by_cases hk' : k₀ = k'
      · simp [hk']
      · simp only [if_neg hk']
        exact ih

theorem containsB_of_mem_fst {b : List (String × α)} {k : String}
    (h : k ∈ b.map Prod.fst) : bucketContainsB b k = true := by
  induction b with
  | nil => simp at h
  | cons p rest ih =>
    obtain ⟨k₀, v₀⟩ := p
    simp only [List.map_cons, List.mem_cons] at h
    simp only [bucketContainsB, Bool.or_eq_true]
    rcases h with h | h
    · left; simp [h.symm]
    · right; exact ih h

theorem not_mem_fst_of_not_contains {b : List (String × α)} {k : String}
    (h : bucketContainsB b k = false) : k ∉ b.map Prod.fst := by
  intro hmem
  rw [containsB_of_mem_fst hmem] at h
  exact Bool.noConfusion h

theorem bucketFind_append_singleton_self {b : List (String × α)} {k : String} {v : α}
    (h : bucketContainsB b k = false) : bucketFind (b ++ [(k, v)]) k = some v := by
  induction b with
  | nil => simp [bucketFind]
  | cons p rest ih =>
    obtain ⟨k₀, v₀⟩ := p
    simp only [bucketContainsB, Bool.or_eq_false_iff] at h
    simp only [List.cons_append, bucketFind, if_neg (by simpa using h.1)]
    exact ih h.2

theorem bucketFind_append_singleton_ne {b : List (String × α)} {k k' : String} {v : α}
    (h : k' ≠ k) : bucketFind (b ++ [(k, v)]) k' = bucketFind b k' := by
  induction b with
  | nil =>
    simp only [List.nil_append, bucketFind]
    rw [if_neg (fun hh : k = k' => h hh.symm)]
  | cons p rest ih =>
    obtain ⟨k₀, v₀⟩ := p
    simp only [List.cons_append, bucketFind]
    by_cases hk : k₀ = k'
    · simp [hk]
    · simp only [if_neg hk]
      exact ih

/-! ### List helper lemmas -/

theorem getD_set_self {β : Type} {l : List β} {i : Nat} {x d : β}
    (h : i < l.length) : (l.set i x).getD i d = x := by
  induction l generalizing i with
  | nil => simp at h
  | cons a l ih =>
    cases i with
    | zero => rfl
    | succ n => exact ih (Nat.lt_of_succ_lt_succ h)

theorem getD_set_ne {β : Type} {l : List β} {i j : Nat} {x d : β}
    (h : i ≠ j) : (l.set i x).getD j d = l.getD j d := by
  induction l generalizing i j with
  | nil => rfl
  | cons a l ih =>
    cases i with
    | zero =>
      cases j with
      | zero => exact absurd rfl h
      | succ m => rfl
    | succ n =>
      cases j with
      | zero => rfl
      | succ m => exact ih (fun hh => h (by rw [hh]))

theorem sum_map_len_set {β : Type} {l : List (List β)} {i : Nat} {b : List β}
    (h : i < l.length) :
    ((l.set i b).map List.length).sum + (l.getD i []).length
      = (l.map List.length).sum + b.length := by
  induction l generalizing i with
  | nil => simp at h
  | cons a l ih =>
    cases i with
    | zero => simp [List.getD]; omega
    | succ n =>
      have := ih (Nat.lt_of_succ_lt_succ h)
      simp only [List.set, List.map_cons, List.sum_cons, List.getD_cons_succ] at this ⊢
      omega

theorem stringHash_lt (k : String) {c : Nat} (hc : 0 < c) : stringHash k c < c := by
  unfold stringHash
  have hgen : ∀ (l : List Char) (h : Nat), h < c →
      l.foldl (fun h ch => (h * 31 + ch.toNat) % c) h < c := by
    intro l
    induction l with
    | nil => intro h hh; exact hh
    | cons a l ih => intro h _; exact ih _ (Nat.mod_lt _ hc)
  exact hgen k.data 0 hc

/-! ### `insertEntry` lemmas -/

theorem insertEntry_eq (d : CustomDictionary α) (k : String) (v : α) :
    insertEntry d k v =
      if bucketContainsB (d.buckets.getD (stringHash k d.capacity) []) k
      then ⟨d.capacity, d.size,
            d.buckets.set (stringHash k d.capacity)
              (bucketReplace (d.buckets.getD (stringHash k d.capacity) []) k v)⟩
      else ⟨d.capacity, d.size + 1,
            d.buckets.set (stringHash k d.capacity)
              (d.buckets.getD (stringHash k d.capacity) [] ++ [(k, v)])⟩ := rfl

theorem capacity_insertEntry {d : CustomDictionary α} {k : String} {v : α} :
    (insertEntry d k v).capacity = d.capacity := by
  rw [insertEntry_eq]
  by_cases hcont : bucketContainsB (d.buckets.getD (stringHash k d.capacity) []) k
  · rw [if_pos hcont]
  · rw [if_neg hcont]

theorem length_buckets_insertEntry {d : CustomDictionary α} {k : String} {v : α} :
    (insertEntry d k v).buckets.length = d.buckets.length := by
  rw [insertEntry_eq]
  by_cases hcont : bucketContainsB (d.buckets.getD (stringHash k d.capacity) []) k
  · rw [if_pos hcont]; exact List.length_set _ _ _
  · rw [if_neg hcont]; exact List.length_set _ _ _

theorem size_insertEntry {d : CustomDictionary α} {k : String} {v : α} :
    (insertEntry d k v).size =
      if bucketContainsB (d.buckets.getD (stringHash k d.capacity) []) k
      then d.size else d.size + 1 := by
  rw [insertEntry_eq]
  by_cases hcont : bucketContainsB (d.buckets.getD (stringHash k d.capacity) []) k
  · rw [if_pos hcont, if_pos hcont]
  · rw [if_neg hcont, if_neg hcont]

theorem getItem_insertEntry_self {d : CustomDictionary α} {k : String} {v : α}
    (hc : 0 < d.capacity) (hlen : d.buckets.length = d.capacity) :
    getItem (insertEntry d k v) k = some v := by
  have hi : stringHash k d.capacity < d.buckets.length := by
    rw [hlen]; exact stringHash_lt k hc
  rw [insertEntry_eq]
  by_cases hcont : bucketContainsB (d.buckets.getD (stringHash k d.capacity) []) k
  · rw [if_pos hcont]
    unfold getItem
    rw [getD_set_self hi]
    exact bucketFind_replace_self hcont
  · rw [if_neg hcont]
    unfold getItem
    rw [getD_set_self hi]
    exact bucketFind_append_singleton_self (by simpa using hcont)

theorem getItem_insertEntry_ne {d : CustomDictionary α} {k k' : String} {v : α}
    (hne : k' ≠ k) :
    getItem (insertEntry d k v) k' = getItem d k' := by
  rw [insertEntry_eq]
  by_cases hsame : stringHash k' d.capacity = stringHash k d.capacity
  · by_cases hcont : bucketContainsB (d.buckets.getD (stringHash k d.capacity) []) k
    · rw [if_pos hcont]
      unfold getItem
      by_cases hlt : stringHash k d.capacity < d.buckets.length
      · rw [hsame, getD_set_self hlt]
        exact bucketFind_replace_ne hne
      · rw [List.set_eq_of_length_le (Nat.le_of_not_lt hlt)]
    · rw [if_neg hcont]
      unfold getItem
      by_cases hlt : stringHash k d.capacity < d.buckets.length
      · rw [hsame, getD_set_self hlt]
        exact bucketFind_append_singleton_ne hne
      · rw [List.set_eq_of_length_le (Nat.le_of_not_lt hlt)]
  · have hset : ∀ b, ((d.buckets.set (stringHash k d.capacity) b).getD
        (stringHash k' d.capacity) []) = d.buckets.getD (stringHash k' d.capacity) [] :=
      fun b => getD_set_ne (fun hh => hsame hh.symm)
    by_cases hcont : bucketContainsB (d.buckets.getD (stringHash k d.capacity) []) k
    · rw [if_pos hcont]; unfold getItem; rw [hset]
    · rw [if_neg hcont]; unfold getItem; rw [hset]

theorem wfs_insertEntry {d : CustomDictionary α} {k : String} {v : α}
    (h : WFS d) : WFS (insertEntry d k v) := by
  obtain ⟨hc, hlen, hsize, hplace, hnd⟩ := h
  have hi : stringHash k d.capacity < d.buckets.length := by
    rw [hlen]; exact stringHash_lt k hc
  have hmem : d.buckets.getD (stringHash k d.capacity) [] ∈ d.buckets := by
    rw [List.getD_eq_getElem d.buckets [] hi]
    exact List.getElem_mem hi
  rw [insertEntry_eq]
  by_cases hcont : bucketContainsB (d.buckets.getD (stringHash k d.capacity) []) k
  · rw [if_pos hcont]
    refine ⟨hc, by simpa using hlen, ?_, ?_, ?_⟩
    · have hsum := sum_map_len_set
        (b := bucketReplace (d.buckets.getD (stringHash k d.capacity) []) k v) hi
      rw [bucketReplace_length] at hsum
      simpa [hsize] using (Nat.add_right_cancel hsum).symm
    · intro j hj p hp
      simp only [List.length_set] at hj
      by_cases hij : stringHash k d.capacity = j
      · subst hij
        rw [getD_set_self hi] at hp
        refine bucketReplace_forall
          (fun p => stringHash p.1 d.capacity = stringHash k d.capacity)
          (hplace _ (List.mem_range.mpr hi)) (fun w => rfl) p hp
      · rw [getD_set_ne hij] at hp
        exact hplace j hj p hp
    · intro b hb
      rcases List.mem_or_eq_of_mem_set hb with hb | hb
      · exact hnd b hb
      · subst hb
        rw [bucketReplace_map_fst]
        exact hnd _ hmem
  · rw [if_neg hcont]
    have hknotin : k ∉ (d.buckets.getD (stringHash k d.capacity) []).map Prod.fst :=
      not_mem_fst_of_not_contains (by simpa using hcont)
    refine ⟨hc, by simpa using hlen, ?_, ?_, ?_⟩
    · have hsum := sum_map_len_set
        (b := d.buckets.getD (stringHash k d.capacity) [] ++ [(k, v)]) hi
      simp only [List.length_append, List.length_cons, List.length_nil] at hsum
      simp only [hsize]
      omega
    · intro j hj p hp
      simp only [List.length_set] at hj
      by_cases hij : stringHash k d.capacity = j
      · subst hij
        rw [getD_set_self hi] at hp
        rcases List.mem_append.mp hp with hp | hp
        · exact hplace _ (List.mem_range.mpr hi) p hp
        · simp only [List.mem_singleton] at hp
          subst hp
          rfl
      · rw [getD_set_ne hij] at hp
        exact hplace j hj p hp
    · intro b hb
      rcases List.mem_or_eq_of_mem_set hb with hb | hb
      · exact hnd b hb
      · subst hb
        rw [List.map_append]
        refine List.Nodup.append (hnd _ hmem) (by simp) ?_
        intro a ha hb
        simp only [List.map_cons, List.map_nil, List.mem_singleton] at hb
        subst hb
        exact hknotin ha

/-! ### Flatten-level lemmas: the whole table as an association list -/

theorem bucketFind_append_some {b l : List (String × α)} {k : String} {v : α}
    (h : bucketFind b k = some v) : bucketFind (b ++ l) k = some v := by
  induction b with
  | nil => simp [bucketFind] at h
  | cons p rest ih =>
    obtain ⟨k₀, v₀⟩ := p
    simp only [bucketFind] at h
    simp only [List.cons_append, bucketFind]
    by_cases hk : k₀ = k
    · rw [if_pos hk] at h ⊢; exact h
    · rw [if_neg hk] at h ⊢; exact ih h

theorem bucketFind_append_none {b l : List (String × α)} {k : String}
    (h : bucketFind b k = none) : bucketFind (b ++ l) k = bucketFind l k := by
  induction b with
  | nil => rfl
  | cons p rest ih =>
    obtain ⟨k₀, v₀⟩ := p
    simp only [bucketFind] at h
    simp only [List.cons_append, bucketFind]
    by_cases hk : k₀ = k
    · rw [if_pos hk] at h; exact absurd h (by simp)
    · rw [if_neg hk] at h ⊢; exact ih h

theorem nodup_flatten_keys (bs : List (List (String × α))) (f : String → Nat) (s : Nat)
    (hplace : ∀ j, ∀ hj : j < bs.length, ∀ p ∈ bs[j], f p.1 = s + j)
    (hnd : ∀ b ∈ bs, (b.map Prod.fst).Nodup) :
    (bs.flatten.map Prod.fst).Nodup := by
  induction bs generalizing s with
  | nil => simp
  | cons b bs ih =>
    simp only [List.flatten_cons, List.map_append]
    refine List.Nodup.append ?_ ?_ ?_
    · exact hnd b (List.mem_cons_self _ _)
    · refine ih (s + 1) ?_ ?_
      · intro j hj p hp
        have hp' := hplace (j + 1) (by simpa using Nat.succ_lt_succ hj) p (by simpa using hp)
        omega
      · intro c hc
        exact hnd c (List.mem_cons_of_mem _ hc)
    · intro a ha hb
      rcases List.mem_map.mp ha with ⟨p, hp, hpa⟩
      rcases List.mem_map.mp hb with ⟨q, hq, hqa⟩
      rcases List.mem_flatten.mp hq with ⟨c, hc, hqc⟩
      rcases List.mem_iff_getElem.mp hc with ⟨j, hj, hcj⟩
      have h1 : f p.1 = s := by simpa using hplace 0 (by simp) p (by simpa using hp)
      have h2 : f q.1 = s + (j + 1) := by
        refine hplace (j + 1) (by simpa using Nat.succ_lt_succ hj) q ?_
        simp only [List.getElem_cons_succ]
        rw [hcj]
        exact hqc
      rw [hpa] at h1
      rw [hqa] at h2
      omega

theorem wfs_flatten_nodup {d : CustomDictionary α} (h : WFS d) :
    (d.buckets.flatten.map Prod.fst).Nodup := by
  obtain ⟨hc, hlen, hsize, hplace, hnd⟩ := h
  refine nodup_flatten_keys d.buckets (fun k => stringHash k d.capacity) 0 ?_ hnd
  intro j hj p hp
  have hpj := hplace j (List.mem_range.mpr hj) p (by rwa [List.getD_eq_getElem _ _ hj])
  show stringHash p.1 d.capacity = 0 + j
  omega

theorem bucketFind_flatten_eq (bs : List (List (String × α))) (k : String)
    (i : Nat) (hi : i < bs.length)
    (hother : ∀ j, ∀ hj : j < bs.length, j ≠ i → ∀ p ∈ bs[j], p.1 ≠ k) :
    bucketFind bs.flatten k = bucketFind bs[i] k := by
  induction bs generalizing i with
  | nil => simp at hi
  | cons b bs ih =>
    simp only [List.flatten_cons]
    cases i with
    | zero =>
      simp only [List.getElem_cons_zero]
      cases hf : bucketFind b k with
      | some v => exact bucketFind_append_some hf
      | none =>
        rw [bucketFind_append_none hf]
        apply bucketFind_not_mem
        intro hmem
        rcases List.mem_map.mp hmem with ⟨p, hp, hpk⟩
        rcases List.mem_flatten.mp hp with ⟨c, hc, hpc⟩
        rcases List.mem_iff_getElem.mp hc with ⟨j, hj, hcj⟩
        refine hother (j + 1) (by simpa using Nat.succ_lt_succ hj) (by simp) p ?_ hpk
        simp only [List.getElem_cons_succ]
        rw [hcj]
        exact hpc
    | succ n =>
      have hb : bucketFind b k = none := by
        apply bucketFind_not_mem
        intro hmem
        rcases List.mem_map.mp hmem with ⟨p, hp, hpk⟩
        exact hother 0 (by simp) (by simp) p (by simpa using hp) hpk
      rw [bucketFind_append_none hb]
      simp only [List.getElem_cons_succ]
      refine ih n (Nat.lt_of_succ_lt_succ hi) ?_
      intro j hj hji p hp
      exact hother (j + 1) (by simpa using Nat.succ_lt_succ hj)
        (by simpa using hji) p (by simpa using hp)

theorem getItem_eq_find_flatten {d : CustomDictionary α} (h : WFS d) (k : String) :
    getItem d k = bucketFind d.buckets.flatten k := by
  obtain ⟨hc, hlen, hsize, hplace, hnd⟩ := h
  have hi : stringHash k d.capacity < d.buckets.length := by
    rw [hlen]; exact stringHash_lt k hc
  unfold getItem
  rw [List.getD_eq_getElem _ _ hi]
  refine (bucketFind_flatten_eq d.buckets k _ hi ?_).symm
  intro j hj hji p hp hpk
  apply hji
  have := hplace j (List.mem_range.mpr hj) p (by rwa [List.getD_eq_getElem _ _ hj])
  rw [hpk] at this
  exact this.symm

/-! ### Folding fresh insertions (the rehash loop of `_resize`) -/

theorem foldl_insertEntry_spec (pairs : List (String × α)) (st : CustomDictionary α)
    (hwf : WFS st)
    (hnd : (pairs.map Prod.fst).Nodup)
    (hfresh : ∀ p ∈ pairs, getItem st p.1 = none) :
    WFS (pairs.foldl (fun acc p => insertEntry acc p.1 p.2) st) ∧
    (pairs.foldl (fun acc p => insertEntry acc p.1 p.2) st).size
      = st.size + pairs.length ∧
    (pairs.foldl (fun acc p => insertEntry acc p.1 p.2) st).capacity = st.capacity ∧
    ∀ k, getItem (pairs.foldl (fun acc p => insertEntry acc p.1 p.2) st) k
      = (bucketFind pairs k).or (getItem st k) := by
  induction pairs generalizing st with
  | nil =>
    refine ⟨hwf, by simp, rfl, ?_⟩
    intro k
    simp [bucketFind]
  | cons p rest ih =>
    obtain ⟨k₀, v₀⟩ := p
    have hk₀fresh : getItem st k₀ = none := hfresh (k₀, v₀) (List.mem_cons_self _ _)
    have hcont : bucketContainsB (st.buckets.getD (stringHash k₀ st.capacity) []) k₀
        = false := by
      cases hcc : bucketContainsB (st.buckets.getD (stringHash k₀ st.capacity) []) k₀ with
      | false => rfl
      | true =>
        exfalso
        have := bucketContainsB_iff_find_isSome.mp hcc
        unfold getItem at hk₀fresh
        rw [hk₀fresh] at this
        simp at this
    have hwf' : WFS (insertEntry st k₀ v₀) := wfs_insertEntry hwf
    have hnd' : (rest.map Prod.fst).Nodup := (List.nodup_cons.mp (by simpa using hnd)).2
    have hk₀notin : k₀ ∉ rest.map Prod.fst := (List.nodup_cons.mp (by simpa using hnd)).1
    have hfresh' : ∀ q ∈ rest, getItem (insertEntry st k₀ v₀) q.1 = none := by
      intro q hq
      have hqk : q.1 ≠ k₀ := by
        intro hh
        exact hk₀notin (hh ▸ List.mem_map_of_mem Prod.fst hq)
      rw [getItem_insertEntry_ne hqk]
      exact hfresh q (List.mem_cons_of_mem _ hq)
    obtain ⟨ih1, ih2, ih3, ih4⟩ := ih (insertEntry st k₀ v₀) hwf' hnd' hfresh'
    simp only [List.foldl_cons]
    refine ⟨ih1, ?_, ?_, ?_⟩
    · rw [ih2, size_insertEntry, if_neg (by rw [hcont]; simp)]
      simp [Nat.add_assoc, Nat.add_comm 1 rest.length]
    · rw [ih3, capacity_insertEntry]
    · intro k
      rw [ih4 k]
      by_cases hk : k = k₀
      · subst hk
        have hrest : bucketFind rest k = none := by
          apply bucketFind_not_mem
          exact hk₀notin
        rw [hrest]
        simp only [bucketFind, if_pos rfl]
        rw [getItem_insertEntry_self hwf.1 hwf.2.1]
        rfl
      · have : bucketFind ((k₀, v₀) :: rest) k = bucketFind rest k := by
          simp only [bucketFind]
          rw [if_neg (fun hh : k₀ = k => hk hh.symm)]
        rw [this, getItem_insertEntry_ne hk]

/-! ### `_resize` lemmas -/

theorem wfs_customInit {c : Nat} (hc : 0 < c) : WFS (customInit (α := α) c) := by
  refine ⟨hc, by simp [customInit], by simp [customInit], ?_, ?_⟩
  · intro j hj p hp
    have : (List.replicate c ([] : List (String × α))).getD j [] = [] := by
      rcases Nat.lt_or_ge j c with h | h
      · rw [List.getD_eq_getElem _ _ (by simpa using h)]
        simp
      · rw [List.getD_eq_default]
        simp [h]
    simp only [customInit] at hp
    rw [this] at hp
    simp at hp
  · intro b hb
    simp only [customInit] at hb
    rw [List.eq_of_mem_replicate hb]
    simp

theorem getItem_customInit {c : Nat} (k : String) :
    getItem (customInit (α := α) c) k = none := by
  unfold getItem customInit
  have : (List.replicate c ([] : List (String × α))).getD (stringHash k c) [] = [] := by
    rcases Nat.lt_or_ge (stringHash k c) c with h | h
    · rw [List.getD_eq_getElem _ _ (by simpa using h)]
      simp
    · rw [List.getD_eq_default]
      simp [h]
  rw [this]
  rfl

theorem resize_spec {d : CustomDictionary α} (h : WFS d) :
    WFS (resize d) ∧ (resize d).size = d.size ∧
    (resize d).capacity = d.capacity * 2 ∧
    ∀ k, getItem (resize d) k = getItem d k := by
  have hc2 : 0 < d.capacity * 2 := by
    have := h.1
    omega
  have hwf0 : WFS (customInit (α := α) (d.capacity * 2)) := wfs_customInit hc2
  have hnd : (d.buckets.flatten.map Prod.fst).Nodup := wfs_flatten_nodup h
  have hfresh : ∀ p ∈ d.buckets.flatten,
      getItem (customInit (α := α) (d.capacity * 2)) p.1 = none :=
    fun p _ => getItem_customInit p.1
  obtain ⟨h1, h2, h3, h4⟩ := foldl_insertEntry_spec d.buckets.flatten
    (customInit (d.capacity * 2)) hwf0 hnd hfresh
  have hre : resize d = d.buckets.flatten.foldl
      (fun acc p => insertEntry acc p.1 p.2) (customInit (d.capacity * 2)) := rfl
  refine ⟨hre ▸ h1, ?_, hre ▸ h3, ?_⟩
  · rw [hre, h2]
    simp only [customInit, List.length_flatten]
    rw [← h.2.2.1]
    omega
  · intro k
    rw [hre, h4 k, getItem_customInit]
    rw [getItem_eq_find_flatten h k]
    cases bucketFind d.buckets.flatten k <;> rfl

/-! ### `__setitem__` lemmas -/

theorem setItem_eq (d : CustomDictionary α) (k : String) (v : α) :
    setItem d k v =
      if bucketContainsB (d.buckets.getD (stringHash k d.capacity) []) k
      then insertEntry d k v
      else if 3 * (insertEntry d k v).capacity ≤ 4 * (insertEntry d k v).size
        then resize (insertEntry d k v) else insertEntry d k v := rfl

theorem getItem_setItem_self {d : CustomDictionary α} {k : String} {v : α}
    (hwf : WFS d) : getItem (setItem d k v) k = some v := by
  rw [setItem_eq]
  by_cases hcont : bucketContainsB (d.buckets.getD (stringHash k d.capacity) []) k
  · rw [if_pos hcont]
    exact getItem_insertEntry_self hwf.1 hwf.2.1
  · rw [if_neg hcont]
    by_cases htr : 3 * (insertEntry d k v).capacity ≤ 4 * (insertEntry d k v).size
    · rw [if_pos htr, (resize_spec (wfs_insertEntry hwf)).2.2.2 k]
      exact getItem_insertEntry_self hwf.1 hwf.2.1
    · rw [if_neg htr]
      exact getItem_insertEntry_self hwf.1 hwf.2.1

theorem getItem_setItem_ne {d : CustomDictionary α} {k k' : String} {v : α}
    (hwf : WFS d) (hne : k' ≠ k) :
    getItem (setItem d k v) k' = getItem d k' := by
  rw [setItem_eq]
  by_cases hcont : bucketContainsB (d.buckets.getD (stringHash k d.capacity) []) k
  · rw [if_pos hcont]
    exact getItem_insertEntry_ne hne
  · rw [if_neg hcont]
    by_cases htr : 3 * (insertEntry d k v).capacity ≤ 4 * (insertEntry d k v).size
    · rw [if_pos htr, (resize_spec (wfs_insertEntry hwf)).2.2.2 k']
      exact getItem_insertEntry_ne hne
    · rw [if_neg htr]
      exact getItem_insertEntry_ne hne

theorem wfs_setItem {d : CustomDictionary α} {k : String} {v : α}
    (hwf : WFS d) : WFS (setItem d k v) := by
  rw [setItem_eq]
  by_cases hcont : bucketContainsB (d.buckets.getD (stringHash k d.capacity) []) k
  · rw [if_pos hcont]
    exact wfs_insertEntry hwf
  · rw [if_neg hcont]
    by_cases htr : 3 * (insertEntry d k v).capacity ≤ 4 * (insertEntry d k v).size
    · rw [if_pos htr]
      exact (resize_spec (wfs_insertEntry hwf)).1
    · rw [if_neg htr]
      exact wfs_insertEntry hwf

theorem inv_setItem {d : CustomDictionary α} {k : String} {v : α}
    (h : Inv d) : Inv (setItem d k v) := by
  obtain ⟨hwf, hload⟩ := h
  refine ⟨wfs_setItem hwf, ?_⟩
  rw [setItem_eq]
  by_cases hcont : bucketContainsB (d.buckets.getD (stringHash k d.capacity) []) k
  · rw [if_pos hcont]
    rw [size_insertEntry, if_pos hcont, capacity_insertEntry]
    exact hload
  · rw [if_neg hcont]
    by_cases htr : 3 * (insertEntry d k v).capacity ≤ 4 * (insertEntry d k v).size
    · rw [if_pos htr]
      obtain ⟨_, hsz, hcap, _⟩ := resize_spec (wfs_insertEntry hwf)
      rw [hsz, hcap, size_insertEntry, if_neg hcont, capacity_insertEntry]
      have hc := hwf.1
      omega
    · rw [if_neg htr]
      rw [size_insertEntry, if_neg hcont, capacity_insertEntry] at htr ⊢
      omega

theorem resize_capacity (e : CustomDictionary α) :
    (resize e).capacity = e.capacity * 2 := by
  have h : ∀ (pairs : List (String × α)) (st : CustomDictionary α),
      (pairs.foldl (fun acc p => insertEntry acc p.1 p.2) st).capacity = st.capacity := by
    intro pairs
    induction pairs with
    | nil => intro st; rfl
    | cons q rest ih =>
      intro st
      simp only [List.foldl_cons]
      rw [ih, capacity_insertEntry]
  exact h e.buckets.flatten _

theorem setItem_trigger {d : CustomDictionary α} {k : String} {v : α}
    (hget : getItem d k = none) (htr : 3 * d.capacity ≤ 4 * (d.size + 1)) :
    (setItem d k v).capacity = d.capacity * 2 ∧
    setItem d k v = resize (insertEntry d k v) := by
  have hcont : bucketContainsB (d.buckets.getD (stringHash k d.capacity) []) k = false := by
    cases hcc : bucketContainsB (d.buckets.getD (stringHash k d.capacity) []) k with
    | false => rfl
    | true =>
      exfalso
      have := bucketContainsB_iff_find_isSome.mp hcc
      unfold getItem at hget
      rw [hget] at this
      simp at this
  have hcond : 3 * (insertEntry d k v).capacity ≤ 4 * (insertEntry d k v).size := by
    rw [size_insertEntry, if_neg (by rw [hcont]; simp), capacity_insertEntry]
    exact htr
  rw [setItem_eq, if_neg (by rw [hcont]; simp), if_pos hcond]
  exact ⟨by rw [resize_capacity, capacity_insertEntry], rfl⟩

/-! ### The load-factor check never fires during the rehash loop -/

theorem foldl_setItem_eq_foldl_insertEntry (pairs : List (String × α))
    (st : CustomDictionary α) (hwf : WFS st)
    (hnd : (pairs.map Prod.fst).Nodup)
    (hfresh : ∀ p ∈ pairs, getItem st p.1 = none)
    (hload : 4 * (st.size + pairs.length) < 3 * st.capacity) :
    pairs.foldl (fun acc p => setItem acc p.1 p.2) st
      = pairs.foldl (fun acc p => insertEntry acc p.1 p.2) st := by
  induction pairs generalizing st with
  | nil => rfl
  | cons p rest ih =>
    obtain ⟨k₀, v₀⟩ := p
    have hk₀fresh : getItem st k₀ = none := hfresh (k₀, v₀) (List.mem_cons_self _ _)
    have hcont : bucketContainsB (st.buckets.getD (stringHash k₀ st.capacity) []) k₀
        = false := by
      cases hcc : bucketContainsB (st.buckets.getD (stringHash k₀ st.capacity) []) k₀ with
      | false => rfl
      | true =>
        exfalso
        have := bucketContainsB_iff_find_isSome.mp hcc
        unfold getItem at hk₀fresh
        rw [hk₀fresh] at this
        simp at this
    have hstep : setItem st k₀ v₀ = insertEntry st k₀ v₀ := by
      rw [setItem_eq, if_neg (by rw [hcont]; simp)]
      rw [if_neg (by
        rw [size_insertEntry, if_neg (by rw [hcont]; simp), capacity_insertEntry]
        simp only [List.length_cons] at hload
        omega)]
    have hwf' : WFS (insertEntry st k₀ v₀) := wfs_insertEntry hwf
    have hnd' : (rest.map Prod.fst).Nodup := (List.nodup_cons.mp (by simpa using hnd)).2
    have hk₀notin : k₀ ∉ rest.map Prod.fst := (List.nodup_cons.mp (by simpa using hnd)).1
    have hfresh' : ∀ q ∈ rest, getItem (insertEntry st k₀ v₀) q.1 = none := by
      intro q hq
      have hqk : q.1 ≠ k₀ := by
        intro hh
        exact hk₀notin (hh ▸ List.mem_map_of_mem Prod.fst hq)
      rw [getItem_insertEntry_ne hqk]
      exact hfresh q (List.mem_cons_of_mem _ hq)
    have hload' : 4 * ((insertEntry st k₀ v₀).size + rest.length)
        < 3 * (insertEntry st k₀ v₀).capacity := by
      rw [size_insertEntry, if_neg (by rw [hcont]; simp), capacity_insertEntry]
      simp only [List.length_cons] at hload
      omega
    simp only [List.foldl_cons]
    rw [hstep]
    exact ih (insertEntry st k₀ v₀) hwf' hnd' hfresh' hload'

theorem resizeViaSet_eq_resize {d : CustomDictionary α} (hwf : WFS d)
    (hload : 4 * d.size < 3 * (d.capacity * 2)) :
    resizeViaSet d = resize d := by
  have hc2 : 0 < d.capacity * 2 := by
    have := hwf.1
    omega
  refine foldl_setItem_eq_foldl_insertEntry d.buckets.flatten
    (customInit (d.capacity * 2)) (wfs_customInit hc2) (wfs_flatten_nodup hwf)
    (fun p _ => getItem_customInit p.1) ?_
  show 4 * (0 + d.buckets.flatten.length) < 3 * (d.capacity * 2)
  rw [List.length_flatten, ← hwf.2.2.1]
  omega

/-! ### `__delitem__` lemmas -/

theorem delItem_eq (d : CustomDictionary α) (k : String) :
    delItem d k =
      if bucketContainsB (d.buckets.getD (stringHash k d.capacity) []) k
      then some ⟨d.capacity, d.size - 1,
            d.buckets.set (stringHash k d.capacity)
              (bucketErase (d.buckets.getD (stringHash k d.capacity) []) k)⟩
      else none := rfl

theorem wfs_delItem {d d' : CustomDictionary α} {k : String}
    (hwf : WFS d) (hdel : delItem d k = some d') :
    WFS d' ∧ d'.size + 1 = d.size ∧ d'.capacity = d.capacity := by
  obtain ⟨hc, hlen, hsize, hplace, hnd⟩ := hwf
  rw [delItem_eq] at hdel
  by_cases hcont : bucketContainsB (d.buckets.getD (stringHash k d.capacity) []) k
  swap
  · rw [if_neg hcont] at hdel
    exact absurd hdel (by simp)
  rw [if_pos hcont] at hdel
  have hi : stringHash k d.capacity < d.buckets.length := by
    rw [hlen]; exact stringHash_lt k hc
  have hmem : d.buckets.getD (stringHash k d.capacity) [] ∈ d.buckets := by
    rw [List.getD_eq_getElem d.buckets [] hi]
    exact List.getElem_mem hi
  have hsum := sum_map_len_set
    (b := bucketErase (d.buckets.getD (stringHash k d.capacity) []) k) hi
  have herase := bucketErase_of_contains hcont
  obtain rfl : d' = ⟨d.capacity, d.size - 1,
      d.buckets.set (stringHash k d.capacity)
        (bucketErase (d.buckets.getD (stringHash k d.capacity) []) k)⟩ := by
    injection hdel with h
    exact h.symm
  refine ⟨⟨hc, by simpa using hlen, by simp only []; omega, ?_, ?_⟩, by simp only []; omega,
    rfl⟩
  · intro j hj p hp
    simp only [List.length_set] at hj
    by_cases hij : stringHash k d.capacity = j
    · subst hij
      rw [getD_set_self hi] at hp
      exact hplace _ (List.mem_range.mpr hi) p (bucketErase_sublist.subset hp)
    · rw [getD_set_ne hij] at hp
      exact hplace j hj p hp
  · intro b hb
    rcases List.mem_or_eq_of_mem_set hb with hb | hb
    · exact hnd b hb
    · subst hb
      exact (hnd _ hmem).sublist (bucketErase_sublist.map Prod.fst)

theorem getItem_delItem_self {d d' : CustomDictionary α} {k : String}
    (hwf : WFS d) (hdel : delItem d k = some d') : getItem d' k = none := by
  obtain ⟨hc, hlen, hsize, hplace, hnd⟩ := hwf
  rw [delItem_eq] at hdel
  by_cases hcont : bucketContainsB (d.buckets.getD (stringHash k d.capacity) []) k
  swap
  · rw [if_neg hcont] at hdel
    exact absurd hdel (by simp)
  rw [if_pos hcont] at hdel
  have hi : stringHash k d.capacity < d.buckets.length := by
    rw [hlen]; exact stringHash_lt k hc
  have hmem : d.buckets.getD (stringHash k d.capacity) [] ∈ d.buckets := by
    rw [List.getD_eq_getElem d.buckets [] hi]
    exact List.getElem_mem hi
  obtain rfl : d' = ⟨d.capacity, d.size - 1,
      d.buckets.set (stringHash k d.capacity)
        (bucketErase (d.buckets.getD (stringHash k d.capacity) []) k)⟩ := by
    injection hdel with h
    exact h.symm
  unfold getItem
  simp only []
  rw [getD_set_self hi]
  exact bucketFind_erase_self (hnd _ hmem)

theorem getItem_delItem_ne {d d' : CustomDictionary α} {k k' : String}
    (hdel : delItem d k = some d') (hne : k' ≠ k) :
    getItem d' k' = getItem d k' := by
  rw [delItem_eq] at hdel
  by_cases hcont : bucketContainsB (d.buckets.getD (stringHash k d.capacity) []) k
  swap
  · rw [if_neg hcont] at hdel
    exact absurd hdel (by simp)
  rw [if_pos hcont] at hdel
  obtain rfl : d' = ⟨d.capacity, d.size - 1,
      d.buckets.set (stringHash k d.capacity)
        (bucketErase (d.buckets.getD (stringHash k d.capacity) []) k)⟩ := by
    injection hdel with h
    exact h.symm
  unfold getItem
  simp only []
  by_cases hsame : stringHash k' d.capacity = stringHash k d.capacity
  · by_cases hlt : stringHash k d.capacity < d.buckets.length
    · rw [hsame, getD_set_self hlt]
      exact bucketFind_erase_ne hne
    · rw [List.set_eq_of_length_le (Nat.le_of_not_lt hlt)]
  · rw [getD_set_ne (fun hh => hsame hh.symm)]

/-! ### `clear`, `__init__`, and reachability -/

theorem clear_eq (d : CustomDictionary α) : clear d = customInit d.capacity := rfl

theorem inv_customInit {c : Nat} (hc : 0 < c) : Inv (customInit (α := α) c) := by
  refine ⟨wfs_customInit hc, ?_⟩
  simp only [customInit]
  omega

theorem reachable_inv {d : CustomDictionary α} (h : Reachable d) : Inv d := by
  induction h with
  | init c hc => exact inv_customInit hc
  | set k v _ ih => exact inv_setItem ih
  | del k _ hdel ih =>
    obtain ⟨hwf', hsz, hcap⟩ := wfs_delItem ih.1 hdel
    refine ⟨hwf', ?_⟩
    have := ih.2
    omega
  | clears _ ih =>
    rw [clear_eq]
    exact inv_customInit ih.1.1

end CustomDictionary

end CustomDictionaryModel

section DictionaryClaims

open CustomDictionary

/-- Claim C1: for every reachable state of the associative container,
`get(k)` after `set(k, v)` returns `v`; `get` of any other key is
unchanged by the `set` (so a `get(k)` after `set(k, v)` with no
intervening `set`/`delete` of `k` still returns `v` along any operation
sequence); after a successful `delete(k)`, `get(k)` raises `KeyNotFound`
(modelled as `none`) and other keys are unchanged; and `_resize` leaves
the whole observable key-to-value mapping intact (it changes no key's
value and loses no key). -/
theorem claim_C1_assoc_container {α : Type} (d : CustomDictionary α)
    (k k' : String) (v : α) (h : Reachable d) :
    getItem (setItem d k v) k = some v ∧
    (k' ≠ k → getItem (setItem d k v) k' = getItem d k') ∧
    (∀ d', delItem d k = some d' →
      getItem d' k = none ∧
      (k' ≠ k → getItem d' k' = getItem d k')) ∧
    (∀ k₀, getItem (resize d) k₀ = getItem d k₀) := by
  have hwf : WFS d := (reachable_inv h).1
  refine ⟨getItem_setItem_self hwf, fun hne => getItem_setItem_ne hwf hne,
    fun d' hdel => ⟨getItem_delItem_self hwf hdel,
      fun hne => getItem_delItem_ne hdel hne⟩,
    (resize_spec hwf).2.2.2⟩

/-- Witness for C1 at a concrete reachable state. -/
theorem claim_C1_witness :
    Reachable (customInit (α := Nat) 4) ∧
    getItem (setItem (customInit (α := Nat) 4) "cat" 7) "cat" = some 7 :=
  ⟨Reachable.init 4 (by decide),
    (claim_C1_assoc_container (customInit 4) "cat" "dog" 7
      (Reachable.init 4 (by decide))).1⟩

/-- Claim C2: after every `set` on a reachable state the load factor
`size / capacity` is strictly below the threshold 0.75 (as exact rational
arithmetic); moreover, when inserting a fresh key pushes
`size / capacity` to the threshold or above, `set` doubles the capacity
via `_resize` before returning, and the rehash loop — which in the source
reinserts every entry through the full `__setitem__` path
(`resizeViaSet`) — never re-triggers a resize, coinciding with the
check-free reinsertion path (`resize`). -/
theorem claim_C2_load_factor {α : Type} (d : CustomDictionary α)
    (k : String) (v : α) (h : Reachable d) :
    ((setItem d k v).size : ℚ) / ((setItem d k v).capacity : ℚ) < 3 / 4 ∧
    (getItem d k = none → 3 * d.capacity ≤ 4 * (d.size + 1) →
      (setItem d k v).capacity = d.capacity * 2 ∧
      setItem d k v = resize (insertEntry d k v) ∧
      resizeViaSet (insertEntry d k v) = resize (insertEntry d k v)) := by
  have hinv := reachable_inv h
  have hinv' := inv_setItem (k := k) (v := v) hinv
  constructor
  · have hcap : (0 : ℚ) < ((setItem d k v).capacity : ℚ) := by
      exact_mod_cast hinv'.1.1
    rw [div_lt_div_iff₀ hcap (by norm_num)]
    have hq : (setItem d k v).size * 4 < 3 * (setItem d k v).capacity := by
      have := hinv'.2
      omega
    exact_mod_cast hq
  · intro hget htr
    obtain ⟨hcap2, hres⟩ := setItem_trigger (v := v) hget htr
    refine ⟨hcap2, hres, ?_⟩
    have hcont : bucketContainsB (d.buckets.getD (stringHash k d.capacity) []) k
        = false := by
      cases hcc : bucketContainsB (d.buckets.getD (stringHash k d.capacity) []) k with
      | false => rfl
      | true =>
        exfalso
        have := bucketContainsB_iff_find_isSome.mp hcc
        unfold getItem at hget
        rw [hget] at this
        simp at this
    refine resizeViaSet_eq_resize (wfs_insertEntry hinv.1) ?_
    rw [size_insertEntry, if_neg (by rw [hcont]; simp), capacity_insertEntry]
    have hload := hinv.2
    have hc := hinv.1.1
    rcases Nat.lt_or_ge d.capacity 2 with hb | hb
    · have hb1 : d.capacity = 1 := by omega
      have ha : d.size = 0 := by omega
      rw [hb1, ha]
      norm_num
    · omega

/-- Witness for C2 at a concrete reachable state. -/
theorem claim_C2_witness :
    Reachable (customInit (α := Nat) 4) ∧
    ((setItem (customInit (α := Nat) 4) "a" 5).size : ℚ)
      / ((setItem (customInit (α := Nat) 4) "a" 5).capacity : ℚ) < 3 / 4 :=
  ⟨Reachable.init 4 (by decide),
    (claim_C2_load_factor (customInit 4) "a" 5 (Reachable.init 4 (by decide))).1⟩

/-- Claim C10: structural invariant of `CustomDictionary` after any
sequence of `set`, `delete`, `clear` (and the resizes they trigger): the
`size` field counts exactly the entries across all buckets; each key
occurs in at most one bucket and at most once in that bucket (the keys of
the concatenated buckets have no duplicate); and every stored entry lives
in the bucket its key hashes to under the current capacity. -/
theorem claim_C10_structural_invariant {α : Type} (d : CustomDictionary α)
    (h : Reachable d) :
    d.size = (d.buckets.map List.length).sum ∧
    (d.buckets.flatten.map Prod.fst).Nodup ∧
    ∀ i ∈ List.range d.buckets.length, ∀ p ∈ d.buckets.getD i [],
      stringHash p.1 d.capacity = i := by
  have hwf : WFS d := (reachable_inv h).1
  exact ⟨hwf.2.2.1, wfs_flatten_nodup hwf, hwf.2.2.2.1⟩

/-- Witness for C10 at a concrete reachable state. -/
theorem claim_C10_witness :
    Reachable (setItem (customInit (α := Nat) 2) "a" 5) ∧
    (setItem (customInit (α := Nat) 2) "a" 5).size
      = ((setItem (customInit (α := Nat) 2) "a" 5).buckets.map List.length).sum :=
  ⟨Reachable.set "a" 5 (Reachable.init 2 (by decide)),
    (claim_C10_structural_invariant _
      (Reachable.set "a" 5 (Reachable.init 2 (by decide)))).1⟩

end DictionaryClaims

/-!
Part 2: the TF-IDF / inverted-index / query pipeline of `indexing.py`.

External NLP collaborators (`nltk.word_tokenize`, `nltk.pos_tag`,
`WordNetLemmatizer.lemmatize`, WordNet synonym lookup) are parameters of
the embedding, per the specification's external-interface section.
Python dicts are embedded as insertion-ordered association lists with
unique keys; Python sets of document ids as `Finset String`.
-/

section SearchEngineModel

/-- Python `str.lower`, as a structurally recursive map over the
character data (agrees with `.lower()` on the program's ASCII data). -/
def pyLower (s : String) : String := String.mk (s.data.map Char.toLower)

/-- Python `range(n)` for a (possibly negative) integer bound: the
indices `0, …, n-1`, empty when `n ≤ 0`. -/
def pyRange (n : Int) : List Nat := List.range n.toNat

/-- Lookup in an insertion-ordered Python dict (first entry with the key;
keys are unique in a dict, so this is the only entry). -/
def pyLookup {β : Type} : List (String × β) → String → Option β
  | [], _ => none
  | (k, v) :: rest, key => if k = key then some v else pyLookup rest key

/-- Python dict assignment `d[key] = v`: overwrite in place when the key
is present (keeping its position), append otherwise. -/
def dictSet {β : Type} : List (String × β) → String → β → List (String × β)
  | [], key, v => [(key, v)]
  | (k, w) :: rest, key, v =>
      if k = key then (key, v) :: rest else (k, w) :: dictSet rest key v

/-- Distinct elements of a list in first-encounter order: the key order
of `Counter(doc_words)`; also the canonical order chosen for iterating a
Python `set` of words (set iteration order is unspecified in Python, and
no result proved here depends on it). -/
def pyDistinctAux : List String → List String → List String
  | [], _ => []
  | w :: ws, seen =>
      if seen.contains w then pyDistinctAux ws seen
      else w :: pyDistinctAux ws (w :: seen)

def pyDistinct (ws : List String) : List String := pyDistinctAux ws []

/-- The items of `Counter(doc_words)`: each distinct word with its
occurrence count, in first-encounter order. -/
def counterItems (ws : List String) : List (String × Nat) :=
  (pyDistinct ws).map fun w => (w, ws.count w)

/-- `calculate_tf(doc_words)`: each distinct word mapped to
`count / total_words`, exact rational arithmetic standing for the float
division. -/
def calculate_tf (doc_words : List String) : List (String × ℚ) :=
  (counterItems doc_words).map fun p =>
    (p.1, (p.2 : ℚ) / (doc_words.length : ℚ))

/-- The `word_doc_counts` defaultdict of `calculate_idf`: iterate the
corpus, and for each word of each document (deduplicated per document)
increment its count (a missing key reads as the `int()` default 0). -/
def word_doc_counts (documents : List (List String)) : List (String × Nat) :=
  documents.foldl
    (fun acc doc_words =>
      (pyDistinct doc_words).foldl
        (fun acc w => dictSet acc w ((pyLookup acc w).getD 0 + 1)) acc)
    []

/-- `calculate_idf(documents)`: every word appearing in the corpus mapped
to `log(total_docs / (1 + doc_count))`, with `math.log` embedded as the
real natural logarithm. -/
noncomputable def calculate_idf (documents : List (List String)) : List (String × ℝ) :=
  (word_doc_counts documents).map fun p =>
    (p.1, Real.log ((documents.length : ℝ) / (1 + (p.2 : ℝ))))

/-- `calculate_tfidf(doc_words, tf, idf)`: for each word of the document
that has an idf entry, store `tf[word] * idf[word]`. In the program `tf`
is always `calculate_tf doc_words`, which contains every word of
`doc_words` (theorem `pyLookup_calculate_tf_mem`), so the `getD 0`
standing for the raising `tf[word]` access is never the default. -/
noncomputable def calculate_tfidf (doc_words : List String) (tf : List (String × ℚ))
    (idf : List (String × ℝ)) : List (String × ℝ) :=
  doc_words.foldl
    (fun acc w =>
      match pyLookup idf w with
      | some iv => dictSet acc w ((((pyLookup tf w).getD 0 : ℚ) : ℝ) * iv)
      | none => acc)
    []

/-- The window test of `phrase_match` and of Python's substring operator
`in`: some slice of length `needle.length` of `hay` equals `needle`,
scanned exactly like the source loop
`for i in range(len(hay) - len(needle) + 1)`. -/
def slideMatch {β : Type} [DecidableEq β] (hay needle : List β) : Bool :=
  (pyRange ((hay.length : Int) - needle.length + 1)).any fun i =>
    decide ((hay.drop i).take needle.length = needle)

/-- `phrase_match(content, query)`: tokenize both lower-cased strings and
slide a window of the query's length across the content tokens. -/
def phrase_match (tok : String → List String) (content query : String) : Bool :=
  slideMatch (tok (pyLower content)) (tok (pyLower query))

/-- Python string containment `sub in s`. -/
def strContainsB (s sub : String) : Bool := slideMatch s.data sub.data

/-- The POS tags accepted as nouns: `('NN', 'NNS', 'NNP', 'NNPS')`. -/
def nounTags : List String := ["NN", "NNS", "NNP", "NNPS"]

/-- `extract_nouns_and_entities(content)`: tokenize the lower-cased
content, POS-tag, keep the noun-tagged words, lemmatize each. The
tokenizer, the tagger and the lemmatizer are the external NLP
collaborators. -/
def extract_nouns_and_entities (tok : String → List String)
    (posTag : List String → List (String × String)) (lemmatize : String → String)
    (content : String) : List String :=
  let words := tok (pyLower content)
  let pos_tags := posTag words
  let nouns := (pos_tags.filter fun p => nounTags.contains p.2).map Prod.fst
  nouns.map lemmatize

/-- The append into the `defaultdict(list)` index:
`self.index[term].append(doc_id)` (a missing term reads as `[]`). -/
def indexAppend (idx : List (String × List String)) (t doc : String) :
    List (String × List String) :=
  match pyLookup idx t with
  | some l => dictSet idx t (l ++ [doc])
  | none => idx ++ [(t, [doc])]

open Classical in
/-- `SearchEngine.update_index` (structure of `indexing.py`; the
significance threshold is the configuration parameter `θ` — the two
source variants hard-code 0.1 and 0.01 respectively): extract each
document's noun tokens, compute the corpus idf once, clear the index
(`oldIndex` is discarded), then for each document select the terms whose
tfidf score strictly exceeds `θ` and append the document id to each
selected term's posting list. -/
noncomputable def update_index (tok : String → List String)
    (posTag : List String → List (String × String)) (lemmatize : String → String)
    (θ : ℝ) (documents : List (String × String))
    (oldIndex : List (String × List String)) : List (String × List String) :=
  let doc_word_list := documents.map fun p =>
    extract_nouns_and_entities tok posTag lemmatize p.2
  let idf := calculate_idf doc_word_list
  -- self.index.clear(): repopulation starts from the empty index,
  -- whatever oldIndex contained
  documents.foldl
    (fun idx p =>
      let doc_words := extract_nouns_and_entities tok posTag lemmatize p.2
      let tf := calculate_tf doc_words
      let tfidf := calculate_tfidf doc_words tf idf
      let important_terms := (tfidf.filter fun q => decide (θ < q.2)).map Prod.fst
      important_terms.foldl (fun idx t => indexAppend idx t p.1) idx)
    []

/-- `SearchEngine.search_by_title`: documents whose title contains the
lower-cased query as a substring, in store order. -/
def search_by_title (documents : List (String × String)) (query : String) :
    List String :=
  (documents.filter fun p => strContainsB (pyLower p.1) (pyLower query)).map Prod.fst

/-- `SearchEngine.search_by_content` of `indexing.py`. Phase A collects
the documents with an exact phrase match and returns them when the set is
non-empty. Phase B extracts the query's noun tokens, expands each noun
through the synonym collaborator (`expandNoun` models
`expand_query_with_synonyms([noun])`, whose result order Python leaves
unspecified), seeds the candidate set with the postings of the first
expanded token (`index.get(…, [])`) and intersects with the postings of
every later expanded token present in the index; a non-empty candidate
set is filtered by the non-noun tokens as substrings, and an empty one
falls back to requiring every raw query token as a substring of the
content. -/
def search_by_content (tok : String → List String)
    (posTag : List String → List (String × String))
    (expandNoun : String → List String)
    (documents : List (String × String))
    (index : List (String × List String))
    (query : String) : Finset String :=
  let matching_docs : Finset String :=
    ((documents.filter fun p => phrase_match tok p.2 query).map Prod.fst).toFinset
  if matching_docs ≠ ∅ then matching_docs
  else
    let query_tokens := tok (pyLower query)
    let query_pos_tags := posTag query_tokens
    let query_nouns := (query_pos_tags.filter fun p => nounTags.contains p.2).map Prod.fst
    let expanded_noun_tokens := query_nouns.flatMap expandNoun
    let noun_matching_docs : Finset String :=
      match expanded_noun_tokens with
      | [] => ∅
      | e0 :: rest =>
          rest.foldl
            (fun s t =>
              if (pyLookup index t).isSome
              then s ∩ ((pyLookup index t).getD []).toFinset
              else s)
            ((pyLookup index e0).getD []).toFinset
    if noun_matching_docs ≠ ∅ then
      let non_noun_tokens :=
        (query_pos_tags.filter fun p => !nounTags.contains p.2).map Prod.fst
      if non_noun_tokens = [] then noun_matching_docs
      else noun_matching_docs.filter fun doc_id =>
        non_noun_tokens.all fun t =>
          strContainsB (pyLower ((pyLookup documents doc_id).getD "")) (pyLower t)
    else
      ((documents.filter fun p =>
        query_tokens.all fun t => strContainsB (pyLower p.2) (pyLower t)).map
          Prod.fst).toFinset

end SearchEngineModel

section SearchEngineLemmas

/-! ### Association-list and distinct-list lemmas -/

theorem mem_pyDistinctAux {ws seen : List String} {x : String} :
    x ∈ pyDistinctAux ws seen ↔ x ∈ ws ∧ x ∉ seen := by
  induction ws generalizing seen with
  | nil => simp [pyDistinctAux]
  | cons w ws ih =>
    by_cases hw : seen.contains w
    · simp only [pyDistinctAux, if_pos hw, ih, List.mem_cons]
      constructor
      · rintro ⟨hx, hs⟩
        exact ⟨Or.inr hx, hs⟩
      · rintro ⟨hx | hx, hs⟩
        · subst hx
          exact absurd (List.mem_of_elem_eq_true hw) hs
        · exact ⟨hx, hs⟩
    · simp only [pyDistinctAux, if_neg hw, List.mem_cons, ih, List.mem_cons, not_or]
      have hwseen : w ∉ seen := fun hc => hw (List.elem_eq_true_of_mem hc)
      constructor
      · rintro (rfl | ⟨hx, hs1, hs2⟩)
        · exact ⟨Or.inl rfl, hwseen⟩
        · exact ⟨Or.inr hx, hs2⟩
      · rintro ⟨rfl | hx, hs⟩
        · exact Or.inl rfl
        · by_cases hxw : x = w
          · exact Or.inl hxw
          · exact Or.inr ⟨hx, hxw, hs⟩

theorem mem_pyDistinct {ws : List String} {x : String} :
    x ∈ pyDistinct ws ↔ x ∈ ws := by
  unfold pyDistinct
  rw [mem_pyDistinctAux]
  simp

theorem nodup_pyDistinctAux (ws seen : List String) :
    (pyDistinctAux ws seen).Nodup := by
  induction ws generalizing seen with
  | nil => simp [pyDistinctAux]
  | cons w ws ih =>
    by_cases hw : seen.contains w
    · simp only [pyDistinctAux, if_pos hw]
      exact ih seen
    · simp only [pyDistinctAux, if_neg hw]
      refine List.nodup_cons.mpr ⟨?_, ih (w :: seen)⟩
      rw [mem_pyDistinctAux]
      simp

theorem nodup_pyDistinct (ws : List String) : (pyDistinct ws).Nodup :=
  nodup_pyDistinctAux ws []

theorem pyLookup_dictSet_self {β : Type} {l : List (String × β)} {k : String} {v : β} :
    pyLookup (dictSet l k v) k = some v := by
  induction l with
  | nil => simp [dictSet, pyLookup]
  | cons p rest ih =>
    obtain ⟨k₀, w⟩ := p
    by_cases hk : k₀ = k
    · simp [dictSet, hk, pyLookup]
    · simp only [dictSet, if_neg hk, pyLookup, if_neg hk]
      exact ih

theorem pyLookup_dictSet_ne {β : Type} {l : List (String × β)} {k k' : String} {v : β}
    (hne : k' ≠ k) : pyLookup (dictSet l k v) k' = pyLookup l k' := by
  induction l with
  | nil =>
    simp only [dictSet, pyLookup]
    rw [if_neg (fun hh : k = k' => hne hh.symm)]
  | cons p rest ih =>
    obtain ⟨k₀, w⟩ := p
    by_cases hk : k₀ = k
    · subst hk
      simp only [dictSet, if_pos rfl, pyLookup]
      rw [if_neg (fun hh : k₀ = k' => hne hh.symm), if_neg (fun hh : k₀ = k' => hne hh.symm)]
    · simp only [dictSet, if_neg hk, pyLookup]
      by_cases hk' : k₀ = k'
      · simp [hk']
      · rw [if_neg hk', if_neg hk']
        exact ih

theorem pyLookup_append_none {β : Type} {l₁ l₂ : List (String × β)} {k : String}
    (h : pyLookup l₁ k = none) : pyLookup (l₁ ++ l₂) k = pyLookup l₂ k := by
  induction l₁ with
  | nil => rfl
  | cons p rest ih =>
    obtain ⟨k₀, w⟩ := p
    simp only [pyLookup] at h
    simp only [List.cons_append, pyLookup]
    by_cases hk : k₀ = k
    · rw [if_pos hk] at h
      exact absurd h (by simp)
    · rw [if_neg hk] at h ⊢
      exact ih h

theorem pyLookup_eq_none_of_not_mem {β : Type} {l : List (String × β)} {k : String}
    (h : k ∉ l.map Prod.fst) : pyLookup l k = none := by
  induction l with
  | nil => rfl
  | cons p rest ih =>
    obtain ⟨k₀, w⟩ := p
    simp only [List.map_cons, List.mem_cons, not_or] at h
    simp only [pyLookup, if_neg (fun hh : k₀ = k => h.1 hh.symm)]
    exact ih h.2

theorem mem_of_pyLookup_eq_some {β : Type} {l : List (String × β)} {k : String} {v : β}
    (h : pyLookup l k = some v) : (k, v) ∈ l := by
  induction l with
  | nil => simp [pyLookup] at h
  | cons p rest ih =>
    obtain ⟨k₀, w⟩ := p
    simp only [pyLookup] at h
    by_cases hk : k₀ = k
    · rw [if_pos hk] at h
      subst hk
      simp only [Option.some.injEq] at h
      subst h
      exact List.mem_cons_self _ _
    · rw [if_neg hk] at h
      exact List.mem_cons_of_mem _ (ih h)

theorem pyLookup_eq_some_of_mem_nodup {β : Type} {l : List (String × β)} {k : String}
    {v : β} (hnd : (l.map Prod.fst).Nodup) (hmem : (k, v) ∈ l) :
    pyLookup l k = some v := by
  induction l with
  | nil => simp at hmem
  | cons p rest ih =>
    obtain ⟨k₀, w⟩ := p
    simp only [List.map_cons, List.nodup_cons] at hnd
    rcases List.mem_cons.mp hmem with h | h
    · rw [← h]
      simp [pyLookup]
    · simp only [pyLookup]
      by_cases hk : k₀ = k
      · exfalso
        subst hk
        exact hnd.1 (List.mem_map_of_mem Prod.fst h)
      · rw [if_neg hk]
        exact ih hnd.2 h

/-! ### Claim C7: term frequencies sum to 1 -/

/-- Claim C7: for every non-empty token list, the term frequencies
returned by `calculate_tf` sum to exactly 1 over the rationals (each
distinct term contributing `count / total`, and the counts partitioning
the token list); the stated floating-point tolerance of 1e-9 is subsumed
by exactness in this idealised arithmetic. -/
theorem claim_C7_tf_sums_to_one (doc_words : List String) (h : doc_words ≠ []) :
    ((calculate_tf doc_words).map Prod.snd).sum = 1 := by
  have hn : ((doc_words.length : ℚ)) ≠ 0 := by
    have := List.length_pos.mpr h
    exact_mod_cast Nat.pos_iff_ne_zero.mp this
  have h1 : ((calculate_tf doc_words).map Prod.snd).sum
      = ((pyDistinct doc_words).map
          (fun w => ((doc_words.count w : ℚ)) / (doc_words.length : ℚ))).sum := by
    simp only [calculate_tf, counterItems, List.map_map]
    congr 1
  rw [h1]
  rw [← List.sum_toFinset _ (nodup_pyDistinct doc_words)]
  have h2 : (pyDistinct doc_words).toFinset = doc_words.toFinset := by
    ext x
    simp [mem_pyDistinct]
  rw [h2, ← Finset.sum_div]
  have h3 : (∑ w ∈ doc_words.toFinset, (doc_words.count w : ℚ))
      = ((doc_words.length : ℚ)) := by
    rw [← Nat.cast_sum]
    exact_mod_cast congrArg (Nat.cast (R := ℚ)) (List.sum_toFinset_count_eq_length doc_words)
  rw [h3]
  exact div_self hn

/-- Witness for C7 on a concrete document. -/
theorem claim_C7_witness :
    (["a", "b", "a"] : List String) ≠ [] ∧
    ((calculate_tf ["a", "b", "a"]).map Prod.snd).sum = 1 :=
  ⟨by decide, claim_C7_tf_sums_to_one ["a", "b", "a"] (by decide)⟩

/-! ### Claim C8: inverse document frequency -/

theorem foldl_incr_lookup (ds : List String) (hnd : ds.Nodup)
    (acc : List (String × Nat)) (w : String) :
    pyLookup (ds.foldl (fun acc w => dictSet acc w ((pyLookup acc w).getD 0 + 1)) acc) w
      = if w ∈ ds then some ((pyLookup acc w).getD 0 + 1) else pyLookup acc w := by
  induction ds generalizing acc with
  | nil => simp
  | cons d ds ih =>
    simp only [List.foldl_cons]
    obtain ⟨hd, hnd'⟩ := List.nodup_cons.mp hnd
    by_cases hw : w = d
    · subst hw
      rw [ih hnd', if_neg hd, pyLookup_dictSet_self]
      simp
    · rw [ih hnd', pyLookup_dictSet_ne hw]
      by_cases hws : w ∈ ds
      · rw [if_pos hws, if_pos (List.mem_cons_of_mem _ hws)]
      · rw [if_neg hws, if_neg (by simp [hw, hws])]

theorem word_doc_counts_fold_lookup (documents : List (List String))
    (acc : List (String × Nat)) (w : String) :
    pyLookup (documents.foldl (fun acc dw =>
        (pyDistinct dw).foldl
          (fun acc w => dictSet acc w ((pyLookup acc w).getD 0 + 1)) acc) acc) w
      = if ∃ d ∈ documents, w ∈ d
        then some ((pyLookup acc w).getD 0
          + documents.countP (fun d => decide (w ∈ d)))
        else pyLookup acc w := by
  induction documents generalizing acc with
  | nil => simp
  | cons dw docs ih =>
    simp only [List.foldl_cons]
    have hacc' : pyLookup ((pyDistinct dw).foldl
        (fun acc w => dictSet acc w ((pyLookup acc w).getD 0 + 1)) acc) w
        = if w ∈ dw then some ((pyLookup acc w).getD 0 + 1) else pyLookup acc w := by
      rw [foldl_incr_lookup _ (nodup_pyDistinct dw)]
      by_cases hw : w ∈ dw
      · rw [if_pos (mem_pyDistinct.mpr hw), if_pos hw]
      · rw [if_neg (fun hc => hw (mem_pyDistinct.mp hc)), if_neg hw]
    rw [ih, hacc']
    by_cases hw : w ∈ dw
    · rw [if_pos hw]
      have hex : ∃ d ∈ dw :: docs, w ∈ d := ⟨dw, List.mem_cons_self _ _, hw⟩
      have hcc : (dw :: docs).countP (fun d => decide (w ∈ d))
          = docs.countP (fun d => decide (w ∈ d)) + 1 := by
        simp [List.countP_cons, hw]
      by_cases hdocs : ∃ d ∈ docs, w ∈ d
      · rw [if_pos hdocs, if_pos hex, hcc]
        simp only [Option.getD_some, Option.some.injEq]
        omega
      · rw [if_neg hdocs, if_pos hex, hcc]
        have hcp : docs.countP (fun d => decide (w ∈ d)) = 0 := by
          rw [List.countP_eq_zero]
          intro d hd
          simp only [decide_eq_true_eq]
          exact fun hwd => hdocs ⟨d, hd, hwd⟩
        rw [hcp]
    · rw [if_neg hw]
      have hcc : (dw :: docs).countP (fun d => decide (w ∈ d))
          = docs.countP (fun d => decide (w ∈ d)) := by
        simp [List.countP_cons, hw]
      by_cases hdocs : ∃ d ∈ docs, w ∈ d
      · have hex : ∃ d ∈ dw :: docs, w ∈ d := by
          rcases hdocs with ⟨d, hd, hwd⟩
          exact ⟨d, List.mem_cons_of_mem _ hd, hwd⟩
        rw [if_pos hdocs, if_pos hex, hcc]
      · rw [if_neg hdocs, if_neg (by
          rintro ⟨d, hd, hwd⟩
          rcases List.mem_cons.mp hd with rfl | hd'
          · exact hw hwd
          · exact hdocs ⟨d, hd', hwd⟩)]

theorem pyLookup_map_snd {β γ : Type} (f : β → γ) (l : List (String × β)) (k : String) :
    pyLookup (l.map fun p => (p.1, f p.2)) k = (pyLookup l k).map f := by
  induction l with
  | nil => rfl
  | cons p rest ih =>
    obtain ⟨k₀, v₀⟩ := p
    simp only [List.map_cons, pyLookup]
    by_cases hk : k₀ = k
    · simp [hk]
    · rw [if_neg hk, if_neg hk]
      exact ih

theorem pyLookup_calculate_idf_aux (documents : List (List String)) (k : String) :
    pyLookup (calculate_idf documents) k
      = (pyLookup (word_doc_counts documents) k).map
          (fun c : ℕ => Real.log ((documents.length : ℝ) / (1 + (c : ℝ)))) :=
  pyLookup_map_snd (fun c : ℕ => Real.log ((documents.length : ℝ) / (1 + (c : ℝ))))
    (word_doc_counts documents) k

theorem pyLookup_calculate_idf (documents : List (List String)) (w : String)
    (h : ∃ d ∈ documents, w ∈ d) :
    pyLookup (calculate_idf documents) w
      = some (Real.log ((documents.length : ℝ)
          / (1 + (documents.countP (fun d => decide (w ∈ d)) : ℝ)))) := by
  rw [pyLookup_calculate_idf_aux]
  unfold word_doc_counts
  rw [word_doc_counts_fold_lookup, if_pos h]
  simp [pyLookup]

/-- Claim C8: `calculate_idf` assigns every term appearing in at least one
document the value `ln(N / (1 + df(term)))` with `df` the per-document
deduplicated document frequency; for fixed positive `N` this value is
strictly decreasing in `df`; and idf values can be negative (not clamped
at zero), witnessed by a one-document corpus whose only term gets
`ln(1/2) < 0`. -/
theorem claim_C8_idf (documents : List (List String)) (w : String) (N df₁ df₂ : ℕ) :
    ((∃ d ∈ documents, w ∈ d) →
      pyLookup (calculate_idf documents) w
        = some (Real.log ((documents.length : ℝ)
            / (1 + (documents.countP (fun d => decide (w ∈ d)) : ℝ))))) ∧
    (0 < N → df₁ < df₂ →
      Real.log ((N : ℝ) / (1 + (df₂ : ℝ))) < Real.log ((N : ℝ) / (1 + (df₁ : ℝ)))) ∧
    (∃ docs₀ w₀ x, pyLookup (calculate_idf docs₀) w₀ = some x ∧ x < 0) := by
  refine ⟨pyLookup_calculate_idf documents w, ?_, ?_⟩
  · intro hN hdf
    have hN' : (0 : ℝ) < (N : ℝ) := by exact_mod_cast hN
    have h₁ : (0 : ℝ) < 1 + (df₁ : ℝ) := by positivity
    have h₂ : 1 + (df₁ : ℝ) < 1 + (df₂ : ℝ) := by
      have : (df₁ : ℝ) < (df₂ : ℝ) := by exact_mod_cast hdf
      linarith
    refine Real.log_lt_log (by positivity) ?_
    exact div_lt_div_of_pos_left hN' h₁ h₂
  · refine ⟨[["a"]], "a", Real.log ((1 : ℝ) / (1 + 1)), ?_, ?_⟩
    · rw [pyLookup_calculate_idf [["a"]] "a" (by decide)]
      norm_num
    · exact Real.log_neg (by norm_num) (by norm_num)

/-- Witness for C8 on a concrete two-document corpus. -/
theorem claim_C8_witness :
    (∃ d ∈ ([["a"], ["a", "b"]] : List (List String)), "a" ∈ d) ∧
    ((0 : ℕ) < 2 ∧ (1 : ℕ) < 2) ∧
    pyLookup (calculate_idf [["a"], ["a", "b"]]) "a"
      = some (Real.log ((([["a"], ["a", "b"]] : List (List String)).length : ℝ)
          / (1 + (([["a"], ["a", "b"]] : List (List String)).countP
              (fun d => decide ("a" ∈ d)) : ℝ)))) ∧
    Real.log (((2 : ℕ) : ℝ) / (1 + ((2 : ℕ) : ℝ)))
      < Real.log (((2 : ℕ) : ℝ) / (1 + ((1 : ℕ) : ℝ))) :=
  ⟨by decide, ⟨by decide, by decide⟩,
    (claim_C8_idf [["a"], ["a", "b"]] "a" 2 1 2).1 (by decide),
    (claim_C8_idf [["a"], ["a", "b"]] "a" 2 1 2).2.1 (by decide) (by decide)⟩

/-! ### Claim C4: phrase matching and the phrase phase of content search -/

theorem slideMatch_iff {β : Type} [DecidableEq β] (hay needle : List β) :
    slideMatch hay needle = true ↔ ∃ pre post, hay = pre ++ needle ++ post := by
  unfold slideMatch pyRange
  rw [List.any_eq_true]
  constructor
  · rintro ⟨i, hi, hw⟩
    rw [decide_eq_true_eq] at hw
    refine ⟨hay.take i, (hay.drop i).drop needle.length, ?_⟩
    have h1 : hay = hay.take i
        ++ ((hay.drop i).take needle.length ++ (hay.drop i).drop needle.length) := by
      rw [List.take_append_drop, List.take_append_drop]
    rw [hw] at h1
    exact h1.trans (List.append_assoc _ _ _).symm
  · rintro ⟨pre, post, rfl⟩
    refine ⟨pre.length, ?_, ?_⟩
    · rw [List.mem_range]
      have hlen : (((pre ++ needle ++ post).length : Int)) - needle.length + 1
          = ((pre.length + post.length + 1 : Nat) : Int) := by
        simp only [List.length_append]
        omega
      rw [hlen, Int.toNat_natCast]
      omega
    · rw [decide_eq_true_eq]
      rw [List.append_assoc, List.drop_left, List.take_left]

/-- A concrete whitespace tokenizer standing in for the external
`word_tokenize` collaborator in witnesses and counterexamples. -/
def splitSpaceAux : List Char → List Char → List (List Char)
  | [], acc => [acc.reverse]
  | c :: cs, acc =>
      if c = ' ' then acc.reverse :: splitSpaceAux cs []
      else splitSpaceAux cs (c :: acc)

def wsTokenize (s : String) : List String :=
  ((splitSpaceAux s.data []).filter (fun l => !l.isEmpty)).map String.mk

/-- A concrete POS tagger marking every token as a singular common noun,
standing in for the external `pos_tag` collaborator. -/
def tagAllNoun (ts : List String) : List (String × String) :=
  ts.map fun t => (t, "NN")

/-- A concrete POS tagger marking every token as a determiner (never a
noun), standing in for the external `pos_tag` collaborator. -/
def tagAllDet (ts : List String) : List (String × String) :=
  ts.map fun t => (t, "DT")

/-- A concrete synonym expansion with no synonyms: the group of a noun is
the noun itself. -/
def expandIdentity (n : String) : List String := [n]

/-- A concrete synonym expansion mapping `cat` to the group
`[cat, feline]`, standing in for the WordNet collaborator. -/
def expandCat (n : String) : List String :=
  if n = "cat" then ["cat", "feline"] else [n]

/-- Claim C4: `phrase_match(content, query)` is true exactly when the
lower-cased query token sequence occurs contiguously inside the
lower-cased content token sequence, and whenever at least one document
phrase-matches the query, `search_by_content` returns exactly the set of
phrase-matching document ids, never reaching the semantic phase. -/
theorem claim_C4_phrase_match (tok : String → List String)
    (posTag : List String → List (String × String))
    (expandNoun : String → List String)
    (documents : List (String × String)) (index : List (String × List String))
    (content query : String) :
    (phrase_match tok content query = true ↔
      ∃ pre post, tok (pyLower content) = pre ++ tok (pyLower query) ++ post) ∧
    ((∃ p ∈ documents, phrase_match tok p.2 query = true) →
      search_by_content tok posTag expandNoun documents index query
        = ((documents.filter fun p => phrase_match tok p.2 query).map
            Prod.fst).toFinset) := by
  constructor
  · exact slideMatch_iff (tok (pyLower content)) (tok (pyLower query))
  · rintro ⟨p, hp, hmatch⟩
    have hne : ((documents.filter fun p => phrase_match tok p.2 query).map
        Prod.fst).toFinset ≠ ∅ := by
      have hpmem : p.1 ∈ (documents.filter fun p => phrase_match tok p.2 query).map
          Prod.fst :=
        List.mem_map_of_mem Prod.fst (List.mem_filter.mpr ⟨hp, hmatch⟩)
      intro hemp
      rw [List.toFinset_eq_empty_iff] at hemp
      rw [hemp] at hpmem
      simp at hpmem
    simp only [search_by_content]
    rw [if_pos hne]

/-- Witness for C4's phrase phase on a concrete corpus and query. -/
theorem claim_C4_witness :
    (∃ p ∈ ([("d1", "the cat sat")] : List (String × String)),
      phrase_match wsTokenize p.2 "cat sat" = true) ∧
    search_by_content wsTokenize tagAllNoun expandIdentity
        [("d1", "the cat sat")] [] "cat sat"
      = ((([("d1", "the cat sat")] : List (String × String)).filter
          fun p => phrase_match wsTokenize p.2 "cat sat").map Prod.fst).toFinset :=
  ⟨by decide,
    (claim_C4_phrase_match wsTokenize tagAllNoun expandIdentity
      [("d1", "the cat sat")] [] "x" "cat sat").2 (by decide)⟩

/-! ### Claim C6: a query tokenizing to zero tokens -/

/-- Counterexample to C6 as stated: on the one-document corpus below, the
empty query tokenizes to zero tokens, yet `search_by_content` returns the
whole corpus (every document phrase-matches the empty token sequence),
not the empty set. -/
theorem claim_C6_counterexample :
    wsTokenize (pyLower "") = [] ∧
    search_by_content wsTokenize tagAllNoun expandIdentity
        [("doc1", "hello world")] [] "" ≠ (∅ : Finset String) := by
  constructor
  · decide
  · decide

/-- Claim C6 as amended: on a non-empty corpus, a content query whose
tokenization yields zero tokens makes every document phrase-match (the
empty window matches at index 0), so `search_by_content` returns the set
of all document ids — not the empty set, and without error; the result is
empty only when the corpus itself is empty. -/
theorem claim_C6_amended (tok : String → List String)
    (posTag : List String → List (String × String))
    (expandNoun : String → List String)
    (documents : List (String × String)) (index : List (String × List String))
    (query : String) (hq : tok (pyLower query) = [])
    (hdocs : documents ≠ []) :
    search_by_content tok posTag expandNoun documents index query
      = (documents.map Prod.fst).toFinset := by
  have hall : ∀ p : String × String, phrase_match tok p.2 query = true := by
    intro p
    unfold phrase_match
    rw [slideMatch_iff]
    exact ⟨tok (pyLower p.2), [], by rw [hq]; simp⟩
  have hfilter : (documents.filter fun p => phrase_match tok p.2 query) = documents :=
    List.filter_eq_self.mpr fun p _ => hall p
  have hne : ((documents.filter fun p => phrase_match tok p.2 query).map
      Prod.fst).toFinset ≠ ∅ := by
    rw [hfilter]
    intro hemp
    rw [List.toFinset_eq_empty_iff, List.map_eq_nil_iff] at hemp
    exact hdocs hemp
  simp only [search_by_content]
  rw [if_pos hne, hfilter]

/-- Witness for the amended C6 on a concrete corpus. -/
theorem claim_C6_amended_witness :
    wsTokenize (pyLower "") = [] ∧
    ([("doc1", "hello world")] : List (String × String)) ≠ [] ∧
    search_by_content wsTokenize tagAllNoun expandIdentity
        [("doc1", "hello world")] [] ""
      = (([("doc1", "hello world")] : List (String × String)).map Prod.fst).toFinset :=
  ⟨by decide, by decide,
    claim_C6_amended wsTokenize tagAllNoun expandIdentity
      [("doc1", "hello world")] [] "" (by decide) (by decide)⟩

/-! ### Claim C5: the semantic phase of content search -/

/-- Union of posting lists over all terms of one synonym group, as the
claim describes it. -/
def unionPostings (index : List (String × List String)) (g : List String) :
    Finset String :=
  g.foldl (fun s t => s ∪ ((pyLookup index t).getD []).toFinset) ∅

/-- The semantic phase exactly as claim C5 words it (this definition
follows the claim, not the source, and exists to be compared with
`search_by_content`): per noun a synonym group, per group the union of
posting lists, the unions intersected across groups; if no noun tokens
exist or the intersection is empty, the substring fallback over all raw
query tokens. -/
def claim_semantic_result (tok : String → List String)
    (posTag : List String → List (String × String))
    (expandNoun : String → List String)
    (documents : List (String × String)) (index : List (String × List String))
    (query : String) : Finset String :=
  let query_tokens := tok (pyLower query)
  let query_pos_tags := posTag query_tokens
  let query_nouns := (query_pos_tags.filter fun p => nounTags.contains p.2).map Prod.fst
  let groups := query_nouns.map expandNoun
  let inter : Finset String :=
    match groups with
    | [] => ∅
    | g0 :: rest => rest.foldl (fun s g => s ∩ unionPostings index g)
        (unionPostings index g0)
  if query_nouns = [] ∨ inter = ∅ then
    ((documents.filter fun p =>
      query_tokens.all fun t => strContainsB (pyLower p.2) (pyLower t)).map
        Prod.fst).toFinset
  else inter

/-- Counterexample to C5 as stated: a corpus with no phrase match on
which the source's semantic phase (which intersects across every
expanded token, unions nowhere, and then falls back) disagrees with the
claim's union-within-group/intersect-across-groups description: the code
returns the fallback set, the claim's description the two-document
union. -/
theorem claim_C5_counterexample :
    (∀ p ∈ ([("d1", "xcatx"), ("d2", "fel")] : List (String × String)),
      phrase_match wsTokenize p.2 "cat" = false) ∧
    search_by_content wsTokenize tagAllNoun expandCat
        [("d1", "xcatx"), ("d2", "fel")]
        [("cat", ["d1"]), ("feline", ["d2"])] "cat"
      ≠ claim_semantic_result wsTokenize tagAllNoun expandCat
        [("d1", "xcatx"), ("d2", "fel")]
        [("cat", ["d1"]), ("feline", ["d2"])] "cat" := by
  constructor
  · decide
  · decide

/-- The query's noun tokens as extracted in the semantic phase. -/
def queryNouns (tok : String → List String)
    (posTag : List String → List (String × String)) (query : String) :
    List String :=
  ((posTag (tok (pyLower query))).filter fun p => nounTags.contains p.2).map Prod.fst

/-- The query's non-noun tokens as extracted in the semantic phase. -/
def queryNonNouns (tok : String → List String)
    (posTag : List String → List (String × String)) (query : String) :
    List String :=
  ((posTag (tok (pyLower query))).filter fun p => !nounTags.contains p.2).map Prod.fst

/-- The final substring fallback of the semantic phase: documents whose
content contains every raw query token as a substring. -/
def fallbackSet (tok : String → List String) (documents : List (String × String))
    (query : String) : Finset String :=
  ((documents.filter fun p =>
    (tok (pyLower query)).all fun t => strContainsB (pyLower p.2) (pyLower t)).map
      Prod.fst).toFinset

/-- What the source's noun loop actually computes: the postings of the
first expanded token, intersected with the postings of every later
expanded token that is present in the index (absent tokens are skipped,
not treated as empty). -/
def flatInter (index : List (String × List String)) (e0 : String)
    (rest : List String) : Finset String :=
  (((pyLookup index e0).getD []).toFinset).filter
    fun doc => ∀ t ∈ rest, (pyLookup index t).isSome = true →
      doc ∈ ((pyLookup index t).getD []).toFinset

theorem foldl_inter_filter (index : List (String × List String)) (ts : List String)
    (s : Finset String) :
    ts.foldl (fun s t => if (pyLookup index t).isSome
        then s ∩ ((pyLookup index t).getD []).toFinset else s) s
      = s.filter (fun doc => ∀ t ∈ ts, (pyLookup index t).isSome = true →
          doc ∈ ((pyLookup index t).getD []).toFinset) := by
  induction ts generalizing s with
  | nil => simp
  | cons t ts ih =>
    simp only [List.foldl_cons]
    by_cases ht : (pyLookup index t).isSome = true
    · rw [if_pos ht, ih]
      ext doc
      simp only [Finset.mem_filter, Finset.mem_inter, List.mem_cons]
      constructor
      · rintro ⟨⟨hs, hmem⟩, hall⟩
        refine ⟨hs, ?_⟩
        rintro t' (rfl | ht')
        · intro _hsome
          exact hmem
        · exact hall t' ht'
      · rintro ⟨hs, hall⟩
        exact ⟨⟨hs, hall t (Or.inl rfl) ht⟩, fun t' ht' => hall t' (Or.inr ht')⟩
    · rw [if_neg ht, ih]
      ext doc
      simp only [Finset.mem_filter, List.mem_cons]
      constructor
      · rintro ⟨hs, hall⟩
        refine ⟨hs, ?_⟩
        rintro t' (rfl | ht')
        · intro hsome
          exact absurd hsome ht
        · exact hall t' ht'
      · rintro ⟨hs, hall⟩
        exact ⟨hs, fun t' ht' => hall t' (Or.inr ht')⟩

/-- Claim C5 as amended to the source's actual behaviour (for
`indexing.py`): when no document phrase-matches, the semantic phase
flattens all noun synonym groups into one expanded token list and
intersects posting lists across every expanded token (seeding with the
first token's postings via `get(…, [])` and skipping later tokens absent
from the index) — no union within a group is ever formed; if there are no
expanded tokens, or the intersection is empty, the raw-token substring
fallback is returned; a non-empty intersection is returned as-is when the
query has no non-noun tokens, and otherwise filtered to the documents
containing every non-noun token as a substring. -/
theorem claim_C5_amended (tok : String → List String)
    (posTag : List String → List (String × String))
    (expandNoun : String → List String)
    (documents : List (String × String)) (index : List (String × List String))
    (query : String)
    (hnophrase : ∀ p ∈ documents, phrase_match tok p.2 query = false) :
    ((queryNouns tok posTag query).flatMap expandNoun = [] →
      search_by_content tok posTag expandNoun documents index query
        = fallbackSet tok documents query) ∧
    ∀ e0 rest, (queryNouns tok posTag query).flatMap expandNoun = e0 :: rest →
      (flatInter index e0 rest = ∅ →
        search_by_content tok posTag expandNoun documents index query
          = fallbackSet tok documents query) ∧
      (flatInter index e0 rest ≠ ∅ →
        search_by_content tok posTag expandNoun documents index query
          = if queryNonNouns tok posTag query = [] then flatInter index e0 rest
            else (flatInter index e0 rest).filter fun doc_id =>
              (queryNonNouns tok posTag query).all fun t =>
                strContainsB (pyLower ((pyLookup documents doc_id).getD ""))
                  (pyLower t)) := by
  have hfe : (documents.filter fun p => phrase_match tok p.2 query) = [] := by
    rw [List.filter_eq_nil_iff]
    intro p hp
    rw [hnophrase p hp]
    simp
  have hm : ((documents.filter fun p => phrase_match tok p.2 query).map
      Prod.fst).toFinset = ∅ := by
    rw [hfe]
    rfl
  constructor
  · intro hflat
    unfold queryNouns at hflat
    simp only [search_by_content]
    rw [if_neg (not_not_intro hm), hflat]
    rfl
  · intro e0 rest hflat
    unfold queryNouns at hflat
    have hfold : rest.foldl (fun s t => if (pyLookup index t).isSome = true
          then s ∩ ((pyLookup index t).getD []).toFinset else s)
          (((pyLookup index e0).getD []).toFinset)
        = flatInter index e0 rest := by
      unfold flatInter
      exact foldl_inter_filter index rest _
    have hsearch : search_by_content tok posTag expandNoun documents index query
        = (if rest.foldl (fun s t => if (pyLookup index t).isSome = true
              then s ∩ ((pyLookup index t).getD []).toFinset else s)
              (((pyLookup index e0).getD []).toFinset) ≠ ∅ then
            (if queryNonNouns tok posTag query = []
             then rest.foldl (fun s t => if (pyLookup index t).isSome = true
                then s ∩ ((pyLookup index t).getD []).toFinset else s)
                (((pyLookup index e0).getD []).toFinset)
             else (rest.foldl (fun s t => if (pyLookup index t).isSome = true
                then s ∩ ((pyLookup index t).getD []).toFinset else s)
                (((pyLookup index e0).getD []).toFinset)).filter fun doc_id =>
               (queryNonNouns tok posTag query).all fun t =>
                 strContainsB (pyLower ((pyLookup documents doc_id).getD ""))
                   (pyLower t))
          else fallbackSet tok documents query) := by
      simp only [search_by_content]
      rw [if_neg (not_not_intro hm), hflat]
      rfl
    rw [hfold] at hsearch
    constructor
    · intro hempty
      rw [hsearch, if_neg (not_not_intro hempty)]
    · intro hne
      rw [hsearch, if_pos hne]

/-- Witness for the amended C5 on the counterexample corpus: the expanded
token list is `[cat, feline]`, its flat intersection is empty, and the
search result is the substring fallback. -/
theorem claim_C5_amended_witness :
    (∀ p ∈ ([("d1", "xcatx"), ("d2", "fel")] : List (String × String)),
      phrase_match wsTokenize p.2 "cat" = false) ∧
    (queryNouns wsTokenize tagAllNoun "cat").flatMap expandCat = ["cat", "feline"] ∧
    flatInter [("cat", ["d1"]), ("feline", ["d2"])] "cat" ["feline"] = ∅ ∧
    search_by_content wsTokenize tagAllNoun expandCat
        [("d1", "xcatx"), ("d2", "fel")]
        [("cat", ["d1"]), ("feline", ["d2"])] "cat"
      = fallbackSet wsTokenize [("d1", "xcatx"), ("d2", "fel")] "cat" :=
  ⟨by decide, by decide, by decide,
    ((claim_C5_amended wsTokenize tagAllNoun expandCat
        [("d1", "xcatx"), ("d2", "fel")]
        [("cat", ["d1"]), ("feline", ["d2"])] "cat" (by decide)).2
      "cat" ["feline"] (by decide)).1 (by decide)⟩

/-! ### Claim C3: the rebuilt index's posting lists -/

theorem pyLookup_append_some {β : Type} {l₁ l₂ : List (String × β)} {k : String} {v : β}
    (h : pyLookup l₁ k = some v) : pyLookup (l₁ ++ l₂) k = some v := by
  induction l₁ with
  | nil => simp [pyLookup] at h
  | cons p rest ih =>
    obtain ⟨k₀, w⟩ := p
    simp only [pyLookup] at h
    simp only [List.cons_append, pyLookup]
    by_cases hk : k₀ = k
    · rw [if_pos hk] at h ⊢; exact h
    · rw [if_neg hk] at h ⊢; exact ih h

theorem mem_postings_indexAppend (idx : List (String × List String))
    (t doc t' doc' : String) :
    doc' ∈ (pyLookup (indexAppend idx t doc) t').getD []
      ↔ doc' ∈ (pyLookup idx t').getD [] ∨ (doc' = doc ∧ t' = t) := by
  unfold indexAppend
  by_cases ht : t' = t
  · subst ht
    cases hl : pyLookup idx t' with
    | some l =>
      rw [pyLookup_dictSet_self]
      simp
    | none =>
      rw [pyLookup_append_none hl]
      simp [pyLookup]
  · cases hl : pyLookup idx t with
    | some l =>
      rw [pyLookup_dictSet_ne ht]
      simp [ht]
    | none =>
      cases hl' : pyLookup idx t' with
      | some l' =>
        rw [pyLookup_append_some hl']
        simp [ht]
      | none =>
        rw [pyLookup_append_none hl']
        simp only [pyLookup, ht, or_false]
        rw [if_neg (fun hh : t = t' => ht hh.symm)]
        simp

theorem mem_postings_foldl_terms (ts : List String)
    (idx : List (String × List String)) (doc t' doc' : String) :
    doc' ∈ (pyLookup (ts.foldl (fun idx t => indexAppend idx t doc) idx) t').getD []
      ↔ doc' ∈ (pyLookup idx t').getD [] ∨ (doc' = doc ∧ t' ∈ ts) := by
  induction ts generalizing idx with
  | nil => simp
  | cons t ts ih =>
    simp only [List.foldl_cons]
    rw [ih, mem_postings_indexAppend]
    constructor
    · rintro ((hm | ⟨rfl, rfl⟩) | ⟨rfl, hts⟩)
      · exact Or.inl hm
      · exact Or.inr ⟨rfl, List.mem_cons_self _ _⟩
      · exact Or.inr ⟨rfl, List.mem_cons_of_mem _ hts⟩
    · rintro (hm | ⟨rfl, hmem⟩)
      · exact Or.inl (Or.inl hm)
      · rcases List.mem_cons.mp hmem with rfl | hts
        · exact Or.inl (Or.inr ⟨rfl, rfl⟩)
        · exact Or.inr ⟨rfl, hts⟩

theorem mem_postings_foldl_docs (docs : List (String × String))
    (f : String × String → List String) (idx0 : List (String × List String))
    (t doc' : String) :
    doc' ∈ (pyLookup (docs.foldl
        (fun idx p => (f p).foldl (fun idx t => indexAppend idx t p.1) idx) idx0) t).getD []
      ↔ doc' ∈ (pyLookup idx0 t).getD [] ∨ ∃ p ∈ docs, doc' = p.1 ∧ t ∈ f p := by
  induction docs generalizing idx0 with
  | nil => simp
  | cons p docs ih =>
    simp only [List.foldl_cons]
    rw [ih, mem_postings_foldl_terms]
    constructor
    · rintro ((hm | ⟨rfl, hts⟩) | ⟨q, hq, rfl, htq⟩)
      · exact Or.inl hm
      · exact Or.inr ⟨p, List.mem_cons_self _ _, rfl, hts⟩
      · exact Or.inr ⟨q, List.mem_cons_of_mem _ hq, rfl, htq⟩
    · rintro (hm | ⟨q, hq, rfl, htq⟩)
      · exact Or.inl (Or.inl hm)
      · rcases List.mem_cons.mp hq with rfl | hq'
        · exact Or.inl (Or.inr ⟨rfl, htq⟩)
        · exact Or.inr ⟨q, hq', rfl, htq⟩

theorem dictSet_cons_eq {β : Type} (k : String) (w v : β) (rest : List (String × β)) :
    dictSet ((k, w) :: rest) k v = (k, v) :: rest := by
  simp [dictSet]

theorem dictSet_cons_ne {β : Type} {k₀ k : String} (h : k₀ ≠ k) (w v : β)
    (rest : List (String × β)) :
    dictSet ((k₀, w) :: rest) k v = (k₀, w) :: dictSet rest k v := by
  simp [dictSet, h]

theorem mem_keys_dictSet {β : Type} {l : List (String × β)} {k x : String} {v : β} :
    x ∈ (dictSet l k v).map Prod.fst ↔ x ∈ l.map Prod.fst ∨ x = k := by
  induction l with
  | nil => simp [dictSet]
  | cons p rest ih =>
    obtain ⟨k₀, w⟩ := p
    by_cases hk : k₀ = k
    · subst hk
      rw [dictSet_cons_eq]
      simp only [List.map_cons, List.mem_cons]
      tauto
    · rw [dictSet_cons_ne hk]
      simp only [List.map_cons, List.mem_cons, ih]
      tauto

theorem nodupKeys_dictSet {β : Type} {l : List (String × β)} {k : String} {v : β}
    (h : (l.map Prod.fst).Nodup) : ((dictSet l k v).map Prod.fst).Nodup := by
  induction l with
  | nil => simp [dictSet]
  | cons p rest ih =>
    obtain ⟨k₀, w⟩ := p
    simp only [List.map_cons, List.nodup_cons] at h
    by_cases hk : k₀ = k
    · subst hk
      rw [dictSet_cons_eq]
      simp only [List.map_cons, List.nodup_cons]
      exact h
    · rw [dictSet_cons_ne hk]
      simp only [List.map_cons, List.nodup_cons]
      refine ⟨?_, ih h.2⟩
      rw [mem_keys_dictSet]
      rintro (hx | rfl)
      · exact h.1 hx
      · exact hk rfl

theorem nodupKeys_calculate_tfidf (doc_words : List String)
    (tf : List (String × ℚ)) (idf : List (String × ℝ)) :
    ((calculate_tfidf doc_words tf idf).map Prod.fst).Nodup := by
  unfold calculate_tfidf
  have hgen : ∀ (acc : List (String × ℝ)), (acc.map Prod.fst).Nodup →
      ((doc_words.foldl (fun acc w =>
        match pyLookup idf w with
        | some iv => dictSet acc w ((((pyLookup tf w).getD 0 : ℚ) : ℝ) * iv)
        | none => acc) acc).map Prod.fst).Nodup := by
    induction doc_words with
    | nil => intro acc hacc; exact hacc
    | cons w ws ih =>
      intro acc hacc
      simp only [List.foldl_cons]
      cases pyLookup idf w with
      | some iv => exact ih _ (nodupKeys_dictSet hacc)
      | none => exact ih _ hacc
  exact hgen [] (by simp)

open Classical in
theorem mem_important_iff (θ : ℝ) (l : List (String × ℝ))
    (hnd : (l.map Prod.fst).Nodup) (t : String) :
    t ∈ ((l.filter fun q => decide (θ < q.2)).map Prod.fst)
      ↔ ∃ s, pyLookup l t = some s ∧ θ < s := by
  constructor
  · intro hmem
    rcases List.mem_map.mp hmem with ⟨q, hq, hqt⟩
    rcases List.mem_filter.mp hq with ⟨hql, hqs⟩
    rw [decide_eq_true_eq] at hqs
    refine ⟨q.2, ?_, hqs⟩
    rw [← hqt]
    exact pyLookup_eq_some_of_mem_nodup hnd (by rwa [Prod.mk.eta])
  · rintro ⟨s, hlook, hs⟩
    have hmem : (t, s) ∈ l := mem_of_pyLookup_eq_some hlook
    refine List.mem_map.mpr ⟨(t, s), ?_, rfl⟩
    refine List.mem_filter.mpr ⟨hmem, ?_⟩
    rw [decide_eq_true_eq]
    exact hs

open Classical in
/-- Claim C3: after `update_index` with significance threshold `θ`, a
document id lies in a term's posting list exactly when that document's
tfidf score for the term strictly exceeds `θ` (the term having a score at
all, i.e. occurring in the document); and rebuilding twice on an
unchanged corpus yields the identical index, because `update_index`
clears the index and repopulates it from the documents alone. -/
theorem claim_C3_index_postings (tok : String → List String)
    (posTag : List String → List (String × String)) (lemmatize : String → String)
    (θ : ℝ) (documents : List (String × String))
    (oldIndex : List (String × List String)) (t doc : String) :
    (doc ∈ (pyLookup (update_index tok posTag lemmatize θ documents oldIndex) t).getD []
      ↔ ∃ content, (doc, content) ∈ documents ∧
          ∃ s, pyLookup (calculate_tfidf
              (extract_nouns_and_entities tok posTag lemmatize content)
              (calculate_tf (extract_nouns_and_entities tok posTag lemmatize content))
              (calculate_idf (documents.map fun p =>
                extract_nouns_and_entities tok posTag lemmatize p.2))) t = some s
            ∧ θ < s) ∧
    update_index tok posTag lemmatize θ documents
        (update_index tok posTag lemmatize θ documents oldIndex)
      = update_index tok posTag lemmatize θ documents oldIndex := by
  constructor
  · simp only [update_index]
    rw [mem_postings_foldl_docs documents
      (fun p => (((calculate_tfidf
          (extract_nouns_and_entities tok posTag lemmatize p.2)
          (calculate_tf (extract_nouns_and_entities tok posTag lemmatize p.2))
          (calculate_idf (documents.map fun p =>
            extract_nouns_and_entities tok posTag lemmatize p.2))).filter
        fun q => decide (θ < q.2)).map Prod.fst)) [] t doc]
    simp only [pyLookup, Option.getD_none, List.not_mem_nil, false_or]
    constructor
    · rintro ⟨p, hp, rfl, htp⟩
      rw [mem_important_iff θ _ (nodupKeys_calculate_tfidf _ _ _) t] at htp
      exact ⟨p.2, by rwa [Prod.mk.eta], htp⟩
    · rintro ⟨content, hmem, hscore⟩
      refine ⟨(doc, content), hmem, rfl, ?_⟩
      rw [mem_important_iff θ _ (nodupKeys_calculate_tfidf _ _ _) t]
      exact hscore
  · rfl

end SearchEngineLemmas

/-!
Part 3: the `Indexing_App.py` variant, whose index is a
`CustomDefaultDict` and whose `search_by_content` reads it through the
inherited `get`, which on the default-dict subclass materialises missing
keys — claim C9's subject.
-/

section CustomDefaultDictModel

open CustomDictionary

/-- `CustomDefaultDict`: a `CustomDictionary` together with the optional
`default_factory`. -/
structure CustomDefaultDict (α : Type) where
  dict : CustomDictionary α
  default_factory : Option (Unit → α)

/-- `CustomDefaultDict.__init__(default_factory, initial_capacity)`. -/
def defaultInit {α : Type} (f : Option (Unit → α)) (c : Nat) : CustomDefaultDict α :=
  ⟨customInit c, f⟩

/-- `CustomDefaultDict.__getitem__`: on a miss with a configured factory,
store `factory()` under the key through the normal `__setitem__` and
return `self[key]` again (after the store the key is present for every
well-formed state, theorem `CustomDictionary.getItem_setItem_self`; the
trailing `none` models the impossible re-raise). Returns the value
together with the possibly mutated dictionary. -/
def defaultGetItem {α : Type} (d : CustomDefaultDict α) (k : String) :
    Option (α × CustomDefaultDict α) :=
  match CustomDictionary.getItem d.dict k with
  | some v => some (v, d)
  | none =>
      match d.default_factory with
      | none => none
      | some f =>
          match CustomDictionary.getItem (setItem d.dict k (f ())) k with
          | some v => some (v, ⟨setItem d.dict k (f ()), d.default_factory⟩)
          | none => none

/-- `CustomDictionary.get(key, default)` as inherited by
`CustomDefaultDict`: `self[key]` dispatches to the subclass
`__getitem__`, so a miss with a configured factory stores the factory
value as a side effect and no `KeyError` ever reaches the `except`. -/
def defaultGet {α : Type} (d : CustomDefaultDict α) (k : String) (default : α) :
    α × CustomDefaultDict α :=
  match defaultGetItem d k with
  | some (v, d') => (v, d')
  | none => (default, d)

/-- One step of the synonym loops of `Indexing_App.search_by_content`:
`noun_matching_docs |= set(self.index.get(synonym, []))`, threading the
possibly mutated index. -/
def synStep (c : Finset String × CustomDefaultDict (List String)) (syn : String) :
    Finset String × CustomDefaultDict (List String) :=
  (c.1 ∪ ((defaultGet c.2 syn []).1.toFinset), (defaultGet c.2 syn []).2)

/-- One noun's candidate set in `Indexing_App.search_by_content`:
`set(self.index.get(noun, []))` then union over the noun's synonyms. -/
def nounGroupFold (np : String × List String) (d : CustomDefaultDict (List String)) :
    Finset String × CustomDefaultDict (List String) :=
  np.2.foldl synStep ((defaultGet d np.1 []).1.toFinset, (defaultGet d np.1 []).2)

/-- The loop over the remaining nouns:
`noun_matching_docs &= current_docs` after each noun's group. -/
def nounStep (acc : Finset String × CustomDefaultDict (List String))
    (np : String × List String) : Finset String × CustomDefaultDict (List String) :=
  (acc.1 ∩ (nounGroupFold np acc.2).1, (nounGroupFold np acc.2).2)

/-- `SearchEngine.search_by_content` of `Indexing_App.py`: exact phrase
phase as in the other variant; otherwise build the insertion-ordered dict
`noun ↦ expand_query_with_synonyms([noun])`, seed the candidates with the
first noun's group (postings of the noun unioned with its synonyms'),
intersect with every later noun's group, and return the candidates (no
substring fallback in this variant). Every posting read goes through the
inherited `get`, so the possibly mutated index is threaded and
returned. -/
def searchByContentApp (tok : String → List String)
    (posTag : List String → List (String × String))
    (expandNoun : String → List String)
    (documents : List (String × String))
    (index : CustomDefaultDict (List String))
    (query : String) : Finset String × CustomDefaultDict (List String) :=
  let matching_docs : Finset String :=
    ((documents.filter fun p => phrase_match tok p.2 query).map Prod.fst).toFinset
  if matching_docs ≠ ∅ then (matching_docs, index)
  else
    let query_tokens := tok (pyLower query)
    let query_pos_tags := posTag query_tokens
    let query_nouns := (query_pos_tags.filter fun p => nounTags.contains p.2).map Prod.fst
    let expanded_noun_tokens : List (String × List String) :=
      query_nouns.foldl (fun acc noun => dictSet acc noun (expandNoun noun)) []
    match expanded_noun_tokens with
    | [] => (∅, index)
    | first :: rest_nouns => rest_nouns.foldl nounStep (nounGroupFold first index)

/-- A concrete empty default-dict index with `list` as factory and a
small capacity, for the counterexample and witnesses. -/
def emptyAppIndex : CustomDefaultDict (List String) :=
  ⟨customInit 4, some fun _ => []⟩

/-- Counterexample to C9 as stated: resolving the content query `cat`
against an empty corpus and an empty index inserts the queried term into
the index with an empty posting list — the set of terms in the index
differs before and after the query. -/
theorem claim_C9_counterexample :
    CustomDictionary.getItem emptyAppIndex.dict "cat" = none ∧
    CustomDictionary.getItem
      (searchByContentApp wsTokenize tagAllNoun expandIdentity []
        emptyAppIndex "cat").2.dict "cat" = some [] := by
  constructor
  · decide
  · decide

/-- The index after a query extends the index before it: every present
term keeps its posting list, and a term can only change from absent to
present with the factory's empty posting list. -/
def ExtendsEmpty (d d' : CustomDefaultDict (List String)) : Prop :=
  (∀ t v, CustomDictionary.getItem d.dict t = some v →
    CustomDictionary.getItem d'.dict t = some v) ∧
  (∀ t, CustomDictionary.getItem d.dict t = none →
    CustomDictionary.getItem d'.dict t = none ∨
    CustomDictionary.getItem d'.dict t = some [])

/-- The state relation maintained by every posting read of the
`Indexing_App` search: well-formedness, an unchanged factory, and
`ExtendsEmpty`. -/
def GoodStep (d d' : CustomDefaultDict (List String)) : Prop :=
  CustomDictionary.WFS d'.dict ∧ d'.default_factory = d.default_factory ∧
  ExtendsEmpty d d'

theorem goodStep_refl {d : CustomDefaultDict (List String)}
    (hwf : CustomDictionary.WFS d.dict) : GoodStep d d :=
  ⟨hwf, rfl, fun _ _ h => h, fun _ h => Or.inl h⟩

theorem goodStep_trans {d d' d'' : CustomDefaultDict (List String)}
    (h1 : GoodStep d d') (h2 : GoodStep d' d'') : GoodStep d d'' := by
  obtain ⟨hwf1, hfac1, hs1, hn1⟩ := h1
  obtain ⟨hwf2, hfac2, hs2, hn2⟩ := h2
  refine ⟨hwf2, hfac2.trans hfac1, fun t v h => hs2 t v (hs1 t v h), fun t h => ?_⟩
  rcases hn1 t h with h' | h'
  · exact hn2 t h'
  · exact Or.inr (hs2 t [] h')

theorem defaultGet_goodStep (d : CustomDefaultDict (List String)) (k : String)
    (default : List String) (hwf : CustomDictionary.WFS d.dict)
    (hfac : d.default_factory = some (fun _ => ([] : List String))) :
    GoodStep d (defaultGet d k default).2 := by
  unfold defaultGet defaultGetItem
  cases hget : CustomDictionary.getItem d.dict k with
  | some v => exact goodStep_refl hwf
  | none =>
    simp only [hfac]
    have hself : CustomDictionary.getItem
        (setItem d.dict k ([] : List String)) k = some [] :=
      getItem_setItem_self hwf
    simp only [hself]
    refine ⟨wfs_setItem hwf, hfac.symm, ?_, ?_⟩
    · intro t v hv
      have htk : t ≠ k := by
        intro hh
        rw [hh, hget] at hv
        exact Option.noConfusion hv
      show CustomDictionary.getItem (setItem d.dict k []) t = some v
      rw [getItem_setItem_ne hwf htk]
      exact hv
    · intro t ht
      by_cases htk : t = k
      · subst htk
        right
        exact getItem_setItem_self hwf
      · left
        show CustomDictionary.getItem (setItem d.dict k []) t = none
        rw [getItem_setItem_ne hwf htk]
        exact ht

theorem foldl_synStep_goodStep (syns : List String)
    (c : Finset String × CustomDefaultDict (List String))
    (hwf : CustomDictionary.WFS c.2.dict)
    (hfac : c.2.default_factory = some (fun _ => ([] : List String))) :
    GoodStep c.2 (syns.foldl synStep c).2 := by
  induction syns generalizing c with
  | nil => exact goodStep_refl hwf
  | cons syn rest ih =>
    simp only [List.foldl_cons]
    have h1 : GoodStep c.2 (synStep c syn).2 :=
      defaultGet_goodStep c.2 syn [] hwf hfac
    refine goodStep_trans h1 (ih (synStep c syn) h1.1 (h1.2.1.trans hfac))

theorem nounGroupFold_goodStep (np : String × List String)
    (d : CustomDefaultDict (List String)) (hwf : CustomDictionary.WFS d.dict)
    (hfac : d.default_factory = some (fun _ => ([] : List String))) :
    GoodStep d (nounGroupFold np d).2 := by
  unfold nounGroupFold
  have h1 : GoodStep d (defaultGet d np.1 []).2 :=
    defaultGet_goodStep d np.1 [] hwf hfac
  exact goodStep_trans h1
    (foldl_synStep_goodStep np.2 _ h1.1 (h1.2.1.trans hfac))

theorem foldl_nounStep_goodStep (nps : List (String × List String))
    (acc : Finset String × CustomDefaultDict (List String))
    (hwf : CustomDictionary.WFS acc.2.dict)
    (hfac : acc.2.default_factory = some (fun _ => ([] : List String))) :
    GoodStep acc.2 (nps.foldl nounStep acc).2 := by
  induction nps generalizing acc with
  | nil => exact goodStep_refl hwf
  | cons np rest ih =>
    simp only [List.foldl_cons]
    have h1 : GoodStep acc.2 (nounStep acc np).2 :=
      nounGroupFold_goodStep np acc.2 hwf hfac
    exact goodStep_trans h1 (ih (nounStep acc np) h1.1 (h1.2.1.trans hfac))

/-- Claim C9 as amended for the `Indexing_App` variant: resolving a
content query never changes any posting list already in the index and
never removes a term, but it is not read-only — a queried term that is
absent may be inserted with the factory's empty posting list (via the
inherited `get`, whose `self[key]` dispatches to the default-dict
`__getitem__`). Title search does not touch the index at all. -/
theorem claim_C9_amended (tok : String → List String)
    (posTag : List String → List (String × String))
    (expandNoun : String → List String)
    (documents : List (String × String))
    (index : CustomDefaultDict (List String)) (query : String)
    (hwf : CustomDictionary.WFS index.dict)
    (hfac : index.default_factory = some (fun _ => ([] : List String))) :
    (∀ t v, CustomDictionary.getItem index.dict t = some v →
      CustomDictionary.getItem
        (searchByContentApp tok posTag expandNoun documents index query).2.dict t
        = some v) ∧
    (∀ t, CustomDictionary.getItem index.dict t = none →
      CustomDictionary.getItem
        (searchByContentApp tok posTag expandNoun documents index query).2.dict t
        = none ∨
      CustomDictionary.getItem
        (searchByContentApp tok posTag expandNoun documents index query).2.dict t
        = some []) := by
  suffices h : GoodStep index
      (searchByContentApp tok posTag expandNoun documents index query).2 by
    exact ⟨h.2.2.1, h.2.2.2⟩
  simp only [searchByContentApp]
  by_cases hm : ((documents.filter fun p => phrase_match tok p.2 query).map
      Prod.fst).toFinset ≠ ∅
  · rw [if_pos hm]
    exact goodStep_refl hwf
  · rw [if_neg hm]
    cases hexp : (((posTag (tok (pyLower query))).filter
        fun p => nounTags.contains p.2).map Prod.fst).foldl
        (fun acc noun => dictSet acc noun (expandNoun noun)) [] with
    | nil => exact goodStep_refl hwf
    | cons first rest_nouns =>
      have h1 : GoodStep index (nounGroupFold first index).2 :=
        nounGroupFold_goodStep first index hwf hfac
      exact goodStep_trans h1
        (foldl_nounStep_goodStep rest_nouns _ h1.1 (h1.2.1.trans hfac))

/-- Witness for the amended C9 on the counterexample instance. -/
theorem claim_C9_amended_witness :
    CustomDictionary.WFS emptyAppIndex.dict ∧
    emptyAppIndex.default_factory = some (fun _ => ([] : List String)) ∧
    CustomDictionary.getItem emptyAppIndex.dict "dog" = none ∧
    (CustomDictionary.getItem
        (searchByContentApp wsTokenize tagAllNoun expandIdentity []
          emptyAppIndex "cat").2.dict "dog" = none ∨
     CustomDictionary.getItem
        (searchByContentApp wsTokenize tagAllNoun expandIdentity []
          emptyAppIndex "cat").2.dict "dog" = some []) :=
  ⟨by decide, rfl, by decide,
    (claim_C9_amended wsTokenize tagAllNoun expandIdentity [] emptyAppIndex "cat"
      (by decide) rfl).2 "dog" (by decide)⟩

end CustomDefaultDictModel
